import Mathlib

/-!
Shallow embedding of the span-metrics processor
(`modules/generator/processor/spanmetrics/spanmetrics.go`) of the tempo
repository.

Modelling choices:
* Go maps (`map[string]V`) are association lists `List (String × V)`;
  `minsert` overwrites the first entry holding the key in place and appends
  a fresh key at the end, `merase` removes the first entry holding the key,
  `mlookup`/`mGetD` read the first entry (with the Go zero value as the
  default for `mGetD`).  A map produced by Go operations never holds a key
  twice; the well-formedness predicates below record this.
* `float64` values are modelled as rationals: every claim under study is
  about ordering and counting, never about rounding.
* Enumeration fields rendered with `%s` (`span.Kind`, `span.Status`) are
  modelled as the strings their Go `String()` methods produce.
* The Prometheus appender is modelled as a deterministic sink that decides,
  per call index, whether the call fails and with which error.
-/

namespace Spanmetrics

/-- Keys of a Go map modelled as an association list. -/
def keysOf {α : Type} (m : List (String × α)) : List String := m.map Prod.fst

/-- Go map read: value of the first entry holding the key. -/
def mlookup {α : Type} : List (String × α) → String → Option α
  | [], _ => none
  | kv :: rest, k => if kv.1 = k then some kv.2 else mlookup rest k

/-- Go map read with the zero value as default (`m[k]` on a missing key). -/
def mGetD {α : Type} (m : List (String × α)) (k : String) (d : α) : α :=
  (mlookup m k).getD d

/-- Go map write: replaces the first entry holding the key, else appends. -/
def minsert {α : Type} : List (String × α) → String → α → List (String × α)
  | [], k, v => [(k, v)]
  | kv :: rest, k, v => if kv.1 = k then (k, v) :: rest else kv :: minsert rest k v

/-- Go map delete: removes the first entry holding the key. -/
def merase {α : Type} : List (String × α) → String → List (String × α)
  | [], _ => []
  | kv :: rest, k => if kv.1 = k then rest else kv :: merase rest k

/-! ### Data model

Embeds the protobuf types consumed by the processor
(`v1_trace.Span`, `v1_resource.Resource`, …) and the processor state
(`type processor struct`, spanmetrics.go lines 40-63). -/

/-- An OTLP attribute value (`AnyValue`): either a string value or any
non-string payload, which `GetStringValue` renders as the empty string. -/
inductive AnyValue : Type
  | stringValue (s : String)
  | nonString
  deriving DecidableEq

/-- `AnyValue.GetStringValue`: the string payload, `""` for non-strings. -/
def AnyValue.getStringValue : AnyValue → String
  | .stringValue s => s
  | .nonString => ""

/-- `v1_common.KeyValue`: one resource attribute. -/
structure KeyValue : Type where
  key : String
  value : AnyValue
  deriving DecidableEq

/-- `v1_resource.Resource`: the attribute list is all the processor reads. -/
structure Resource : Type where
  attributes : List KeyValue
  deriving DecidableEq

/-- `v1_trace.Span`, restricted to the fields the processor reads.
`kind` and `status` hold the strings `%s` renders for `span.Kind` and
`span.Status`; the timestamps are `uint64` nanosecond values. -/
structure Span : Type where
  name : String
  kind : String
  status : String
  startTimeUnixNano : Nat
  endTimeUnixNano : Nat
  deriving DecidableEq

/-- `v1_trace.InstrumentationLibrarySpans`. -/
structure InstrumentationLibrarySpans : Type where
  spans : List Span
  deriving DecidableEq

/-- `v1_trace.ResourceSpans`. -/
structure ResourceSpans : Type where
  resource : Resource
  instrumentationLibrarySpans : List InstrumentationLibrarySpans
  deriving DecidableEq

/-- `tempopb.PushSpansRequest`. -/
structure PushSpansRequest : Type where
  batches : List ResourceSpans
  deriving DecidableEq

/-- A label set (`labels.Labels`): an ordered list of name/value pairs. -/
abbrev Labels : Type := List (String × String)

/-- The per-tenant processor state (`type processor struct`).  The
Prometheus gauge handle is modelled by its current value. -/
structure Processor : Type where
  namespace' : String
  calls : List (String × ℚ)
  latencyCount : List (String × ℚ)
  latencySum : List (String × ℚ)
  latencyBucketCounts : List (String × List ℚ)
  latencyBuckets : List ℚ
  cache : List (String × Labels)
  stalenessCounter : List (String × Int)
  metricActiveSeries : ℚ
  deriving DecidableEq

/-- `New(tenant)`: the fresh processor state (gauges start at zero). -/
def newProcessor : Processor where
  namespace' := "tempo"
  calls := []
  latencyCount := []
  latencySum := []
  latencyBucketCounts := []
  latencyBuckets := [1, 10, 50, 100, 500]
  cache := []
  stalenessCounter := []
  metricActiveSeries := 0

/-! ### Ingestion path (`PushSpans` → `aggregateMetrics` → per-span update) -/

/-- `semconv.AttributeServiceName`. -/
def attributeServiceName : String := "service.name"

/-- `getServiceName` (lines 239-247): the string value of the first
attribute keyed `service.name`, or `""`. -/
def getServiceName (rs : Resource) : String :=
  match rs.attributes.find? (fun attr => attr.key = attributeServiceName) with
  | some attr => attr.value.getStringValue
  | none => ""

/-- `buildKey` (lines 212-217): `fmt.Sprintf("%s_%s_%s_%s", …)`. -/
def buildKey (svcName : String) (span : Span) : String :=
  svcName ++ "_" ++ span.name ++ "_" ++ span.kind ++ "_" ++ span.status

/-- The label set cached for a span (lines 221-226). -/
def spanLabels (svcName : String) (span : Span) : Labels :=
  [("service", svcName), ("span_name", span.name),
   ("span_kind", span.kind), ("span_status", span.status)]

/-- `cacheLabels` (lines 219-227). -/
def cacheLabels (p : Processor) (key svcName : String) (span : Span) : Processor :=
  { p with cache := minsert p.cache key (spanLabels svcName span) }

/-- The latency of a span in milliseconds (line 109):
`float64(span.GetEndTimeUnixNano()-span.GetStartTimeUnixNano()) / 1e6`,
with the `uint64` subtraction wrapping modulo `2^64`. -/
def latencyMS (span : Span) : ℚ :=
  (((span.endTimeUnixNano + 2 ^ 64 - span.startTimeUnixNano) % 2 ^ 64 : ℕ) : ℚ) / 1000000

/-- `sort.SearchFloat64s(a, x)` on a sorted slice: the smallest index `i`
with `x ≤ a i`, or `a.length` when every element is below `x`. -/
def searchFloat64s (a : List ℚ) (x : ℚ) : Nat :=
  match a with
  | [] => 0
  | b :: rest => if x ≤ b then 0 else searchFloat64s rest x + 1

/-- The bucket-increment loop of `aggregateLatencyMetrics` (lines 128-130):
`for i := 0; i < idx; i++ { counts[i]++ }`. -/
def incrBelow : List ℚ → Nat → List ℚ
  | counts, 0 => counts
  | [], _ + 1 => []
  | c :: rest, idx + 1 => (c + 1) :: incrBelow rest idx

/-- `aggregateLatencyMetrics` (lines 119-131). -/
def aggregateLatencyMetrics (p : Processor) (key : String) (latencyMS : ℚ) : Processor :=
  let p :=
    if (mlookup p.latencyBucketCounts key).isSome then p
    else
      let fresh := minsert p.latencyBucketCounts key
        (List.replicate (p.latencyBuckets.length + 1) 0)
      { p with latencyBucketCounts := fresh }
  let p := { p with latencyCount := minsert p.latencyCount key (mGetD p.latencyCount key 0 + 1) }
  let p := { p with latencySum := minsert p.latencySum key (mGetD p.latencySum key 0 + latencyMS) }
  let idx := searchFloat64s p.latencyBuckets latencyMS
  let updated := minsert p.latencyBucketCounts key
    (incrBelow (mGetD p.latencyBucketCounts key []) idx)
  { p with latencyBucketCounts := updated }

/-- `aggregateMetricsForSpan` (lines 106-117). -/
def aggregateMetricsForSpan (p : Processor) (svcName : String) (span : Span) : Processor :=
  let key := buildKey svcName span
  let lat := latencyMS span
  let p := cacheLabels p key svcName span
  let p := { p with stalenessCounter := minsert p.stalenessCounter key 0 }
  let p := { p with calls := minsert p.calls key (mGetD p.calls key 0 + 1) }
  aggregateLatencyMetrics p key lat

/-- `aggregateMetrics` (lines 92-104). -/
def aggregateMetrics (p : Processor) (resourceSpans : List ResourceSpans) : Processor :=
  resourceSpans.foldl
    (fun p rs =>
      let svcName := getServiceName rs.resource
      if svcName = "" then p
      else
        rs.instrumentationLibrarySpans.foldl
          (fun p ils => ils.spans.foldl
            (fun p span => aggregateMetricsForSpan p svcName span) p) p)
    p

/-- `PushSpans` (lines 84-88): aggregates and always returns `nil`. -/
def pushSpans (p : Processor) (req : PushSpansRequest) : Processor × Option String :=
  (aggregateMetrics p req.batches, none)

/-! ### Collection path (`CollectMetrics`) -/

/-- One iteration of the staleness sweep (lines 141-152): increment the
key's counter; at 4 or above delete the key from all six maps, otherwise
store the incremented counter. -/
def sweepStep (q : Processor) (key : String) : Processor :=
  let c := mGetD q.stalenessCounter key 0 + 1
  if 4 ≤ c then
    { q with
      stalenessCounter := merase q.stalenessCounter key,
      calls := merase q.calls key,
      latencyCount := merase q.latencyCount key,
      latencySum := merase q.latencySum key,
      latencyBucketCounts := merase q.latencyBucketCounts key,
      cache := merase q.cache key }
  else
    { q with stalenessCounter := minsert q.stalenessCounter key c }

/-- The staleness sweep: one `sweepStep` per key of `stalenessCounter`. -/
def sweep (p : Processor) : Processor :=
  (keysOf p.stalenessCounter).foldl sweepStep p

/-- The state effect of `CollectMetrics` (lines 140-154): sweep, then set
the active-series gauge to `len(p.calls)`. -/
def collectState (p : Processor) : Processor :=
  let p := sweep p
  { p with metricActiveSeries := (p.calls.length : ℚ) }

/-- One sample handed to `storage.Appender.Append`. -/
structure Sample : Type where
  labels : Labels
  timestampMs : Int
  value : ℚ
  deriving DecidableEq

/-- The sink: decides, per append-call index, whether that call fails and
with which error. -/
structure Appender (E : Type) : Type where
  failAt : Nat → Option E

/-- A sink that accepts every append call. -/
def neverFail (E : Type) : Appender E := ⟨fun _ => none⟩

/-- One `appender.Append` call, threading the number of calls made so far
and the samples already written; a failure aborts with the error and the
samples written before it (they are not rolled back). -/
def appendStep {E : Type} (ap : Appender E) (s : Nat × List Sample) (smp : Sample) :
    Except (E × List Sample) (Nat × List Sample) :=
  match ap.failAt s.1 with
  | some e => .error (e, s.2)
  | none => .ok (s.1 + 1, s.2 ++ [smp])

/-- Appending a whole list of samples, stopping at the first failure. -/
def runAppend {E : Type} (ap : Appender E) (s : Nat × List Sample) (l : List Sample) :
    Except (E × List Sample) (Nat × List Sample) :=
  l.foldlM (appendStep ap) s

/-- `getLabels` (lines 229-237): cached labels plus the `__name__` label. -/
def getLabels (p : Processor) (key metricName : String) : Labels :=
  mGetD p.cache key [] ++ [("__name__", p.namespace' ++ "_" ++ metricName)]

/-- `int(f)` on a `float64`: truncation toward zero. -/
def goInt (q : ℚ) : Int := if 0 ≤ q then ⌊q⌋ else ⌈q⌉

/-- The `le` label value of bucket `i` (lines 197-202): the boundary via
`strconv.Itoa(int(boundary))`, or `"+Inf"` for the overflow bucket. -/
def bucketLabelValue (p : Processor) (i : Nat) : String :=
  if i = p.latencyBuckets.length then "+Inf"
  else toString (goInt (p.latencyBuckets.getD i 0))

/-- `collectCalls` (lines 169-179). -/
def collectCalls {E : Type} (p : Processor) (ap : Appender E) (timestampMs : Int)
    (s : Nat × List Sample) : Except (E × List Sample) (Nat × List Sample) :=
  p.calls.foldlM
    (fun s kv => appendStep ap s ⟨getLabels p kv.1 "calls_total", timestampMs, kv.2⟩) s

/-- `collectLatencyMetrics` (lines 181-210). -/
def collectLatencyMetrics {E : Type} (p : Processor) (ap : Appender E) (timestampMs : Int)
    (s : Nat × List Sample) : Except (E × List Sample) (Nat × List Sample) :=
  p.latencyCount.foldlM
    (fun s kv => do
      let s ← appendStep ap s ⟨getLabels p kv.1 "latency_count", timestampMs,
        mGetD p.latencyCount kv.1 0⟩
      let s ← appendStep ap s ⟨getLabels p kv.1 "latency_sum", timestampMs,
        mGetD p.latencySum kv.1 0⟩
      (mGetD p.latencyBucketCounts kv.1 []).enum.foldlM
        (fun s ic => appendStep ap s
          ⟨getLabels p kv.1 "latency_bucket" ++ [("le", bucketLabelValue p ic.1)],
           timestampMs, ic.2⟩) s)
    s

/-- `CollectMetrics` (lines 133-167): sweep, update the gauge, then emit;
the first append failure aborts the cycle and is returned. -/
def collectMetrics {E : Type} (p : Processor) (ap : Appender E) (timestampMs : Int) :
    Processor × Except (E × List Sample) (Nat × List Sample) :=
  let p := collectState p
  (p, do
    let s ← collectCalls p ap timestampMs (0, [])
    collectLatencyMetrics p ap timestampMs s)

/-! ### The emission plan of a collection cycle, as a pure sample list -/

/-- The samples `collectCalls` hands to the appender, in order. -/
def callsSamples (p : Processor) (timestampMs : Int) : List Sample :=
  p.calls.map (fun kv => ⟨getLabels p kv.1 "calls_total", timestampMs, kv.2⟩)

/-- The samples `collectLatencyMetrics` hands to the appender for one key. -/
def keySamples (p : Processor) (timestampMs : Int) (key : String) : List Sample :=
  ⟨getLabels p key "latency_count", timestampMs, mGetD p.latencyCount key 0⟩ ::
  ⟨getLabels p key "latency_sum", timestampMs, mGetD p.latencySum key 0⟩ ::
  (mGetD p.latencyBucketCounts key []).enum.map
    (fun ic => ⟨getLabels p key "latency_bucket" ++ [("le", bucketLabelValue p ic.1)],
      timestampMs, ic.2⟩)

/-- The samples `collectLatencyMetrics` hands to the appender, in order. -/
def latencySamples (p : Processor) (timestampMs : Int) : List Sample :=
  p.latencyCount.flatMap (fun kv => keySamples p timestampMs kv.1)

/-- Every sample one collection cycle hands to the appender, in order. -/
def emit (p : Processor) (timestampMs : Int) : List Sample :=
  callsSamples p timestampMs ++ latencySamples p timestampMs

/-! ### Well-formedness and the all-or-nothing membership invariant -/

/-- Each per-key map holds every key at most once (true of any Go map). -/
def WF (p : Processor) : Prop :=
  (keysOf p.calls).Nodup ∧ (keysOf p.latencyCount).Nodup ∧
  (keysOf p.latencySum).Nodup ∧ (keysOf p.latencyBucketCounts).Nodup ∧
  (keysOf p.cache).Nodup ∧ (keysOf p.stalenessCounter).Nodup

/-- The state invariant of the processor: the six per-key maps hold exactly
the same keys, in the same creation order and without duplicates, and every
bucket-count slice has one slot per boundary plus an untouched overflow
slot. -/
def Inv (p : Processor) : Prop :=
  keysOf p.calls = keysOf p.stalenessCounter ∧
  keysOf p.latencyCount = keysOf p.stalenessCounter ∧
  keysOf p.latencySum = keysOf p.stalenessCounter ∧
  keysOf p.latencyBucketCounts = keysOf p.stalenessCounter ∧
  keysOf p.cache = keysOf p.stalenessCounter ∧
  (keysOf p.stalenessCounter).Nodup ∧
  (∀ kv ∈ p.latencyBucketCounts,
    kv.2.length = p.latencyBuckets.length + 1 ∧ kv.2.getLast? = some 0)

instance (p : Processor) : Decidable (WF p) := by
  unfold WF
  infer_instance

instance (p : Processor) : Decidable (Inv p) := by
  unfold Inv
  infer_instance

/-- The states reachable by interleaving span ingestions and collection
cycles, starting from a fresh processor. -/
inductive Reachable : Processor → Prop
  | init : Reachable newProcessor
  | push (p : Processor) (req : PushSpansRequest) :
      Reachable p → Reachable (pushSpans p req).1
  | collect (p : Processor) : Reachable p → Reachable (collectState p)

/-- The bucket-count slice read by `aggregateLatencyMetrics` after its
lazy-creation step: the stored slice, or a fresh all-zero slice. -/
def bucketBase (p : Processor) (key : String) : List ℚ :=
  (mlookup p.latencyBucketCounts key).getD (List.replicate (p.latencyBuckets.length + 1) 0)

/-- Iterated collection cycles (their state effect). -/
def collectN : Processor → Nat → Processor
  | p, 0 => p
  | p, n + 1 => collectN (collectState p) n

/-- The key is present in all six per-key maps. -/
def presentAll (p : Processor) (k : String) : Prop :=
  (mlookup p.calls k).isSome ∧ (mlookup p.latencyCount k).isSome ∧
  (mlookup p.latencySum k).isSome ∧ (mlookup p.latencyBucketCounts k).isSome ∧
  (mlookup p.cache k).isSome ∧ (mlookup p.stalenessCounter k).isSome

/-- The key is absent from all six per-key maps. -/
def absentAll (p : Processor) (k : String) : Prop :=
  mlookup p.calls k = none ∧ mlookup p.latencyCount k = none ∧
  mlookup p.latencySum k = none ∧ mlookup p.latencyBucketCounts k = none ∧
  mlookup p.cache k = none ∧ mlookup p.stalenessCounter k = none

/-! ### Concrete example states, used to instantiate the theorems -/

/-- A 5 ms server span. -/
def exSpan : Span := ⟨"op", "SPAN_KIND_SERVER", "STATUS_CODE_OK", 0, 5000000⟩

/-- A 20 ms span of the same series. -/
def exSpan2 : Span := ⟨"op", "SPAN_KIND_SERVER", "STATUS_CODE_OK", 0, 20000000⟩

/-- The example span's aggregation key. -/
def exKey : String := buildKey "svc" exSpan

/-- The state a fresh processor reaches after ingesting `exSpan` once for
service `svc`, written out literally. -/
def exStored : Processor :=
  { newProcessor with
    calls := [(exKey, 1)],
    latencyCount := [(exKey, 1)],
    latencySum := [(exKey, 5)],
    latencyBucketCounts := [(exKey, [1, 0, 0, 0, 0, 0])],
    cache := [(exKey, spanLabels "svc" exSpan)],
    stalenessCounter := [(exKey, 0)] }

/-- A push request delivering `exSpan` under a resource named `svc`. -/
def exReq : PushSpansRequest :=
  ⟨[⟨⟨[⟨attributeServiceName, .stringValue "svc"⟩]⟩, [⟨[exSpan]⟩]⟩]⟩

/-- A resource group whose service-name attribute is not a string, with one
span beneath it. -/
def exBadResourceSpans : ResourceSpans :=
  ⟨⟨[⟨attributeServiceName, .nonString⟩]⟩, [⟨[exSpan]⟩]⟩

/-- A sink that fails its third append call (call index 2). -/
def exFailAp : Appender String := ⟨fun n => if n = 2 then some "boom" else none⟩

/-- The state reached by pushing `exReq` into a fresh processor. -/
def exPushed : Processor := (pushSpans newProcessor exReq).1

/-- Two same-series spans with their service names, ready for ingestion. -/
def exBatch : List (String × Span) := [("svc", exSpan), ("svc", exSpan2)]

/-! ### Association-list lemmas -/

@[simp] theorem keysOf_nil {α : Type} : keysOf ([] : List (String × α)) = [] := rfl

@[simp] theorem keysOf_cons {α : Type} (kv : String × α) (m : List (String × α)) :
    keysOf (kv :: m) = kv.1 :: keysOf m := rfl

theorem mlookup_cons {α : Type} (kv : String × α) (m : List (String × α)) (k : String) :
    mlookup (kv :: m) k = if kv.1 = k then some kv.2 else mlookup m k := rfl

theorem minsert_cons {α : Type} (kv : String × α) (m : List (String × α)) (k : String) (v : α) :
    minsert (kv :: m) k v = if kv.1 = k then (k, v) :: m else kv :: minsert m k v := rfl

theorem merase_cons {α : Type} (kv : String × α) (m : List (String × α)) (k : String) :
    merase (kv :: m) k = if kv.1 = k then m else kv :: merase m k := rfl

theorem mlookup_minsert_self {α : Type} (m : List (String × α)) (k : String) (v : α) :
    mlookup (minsert m k v) k = some v := by
  induction m with
  | nil => simp [minsert, mlookup]
  | cons kv rest ih =>
      rw [minsert_cons]
      by_cases h : kv.1 = k
      · rw [if_pos h, mlookup_cons, if_pos rfl]
      · rw [if_neg h, mlookup_cons, if_neg h, ih]

theorem mlookup_minsert_ne {α : Type} (m : List (String × α)) (k k' : String) (v : α)
    (h : k ≠ k') : mlookup (minsert m k v) k' = mlookup m k' := by
  induction m with
  | nil => simp [minsert, mlookup, h]
  | cons kv rest ih =>
      rw [minsert_cons]
      by_cases hk : kv.1 = k
      · rw [if_pos hk, mlookup_cons, mlookup_cons,
          if_neg h, if_neg (fun hc => h (hk.symm.trans hc))]
      · rw [if_neg hk, mlookup_cons, mlookup_cons, ih]

theorem mlookup_merase_ne {α : Type} (m : List (String × α)) (k k' : String)
    (h : k ≠ k') : mlookup (merase m k) k' = mlookup m k' := by
  induction m with
  | nil => simp [merase]
  | cons kv rest ih =>
      rw [merase_cons]
      by_cases hk : kv.1 = k
      · rw [if_pos hk, mlookup_cons, if_neg (fun hc => h (hk.symm.trans hc))]
      · rw [if_neg hk, mlookup_cons, mlookup_cons, ih]

theorem mem_keysOf_iff_mlookup {α : Type} (m : List (String × α)) (k : String) :
    k ∈ keysOf m ↔ (mlookup m k).isSome := by
  induction m with
  | nil => simp [keysOf, mlookup]
  | cons kv rest ih =>
      rw [keysOf_cons, mlookup_cons]
      by_cases hk : kv.1 = k
      · simp [hk]
      · rw [if_neg hk]
        simp only [List.mem_cons]
        constructor
        · intro h
          rcases h with h | h
          · exact absurd h.symm hk
          · exact ih.mp h
        · intro h
          exact Or.inr (ih.mpr h)

theorem mlookup_eq_none_of_not_mem {α : Type} (m : List (String × α)) (k : String)
    (h : k ∉ keysOf m) : mlookup m k = none := by
  have := (mem_keysOf_iff_mlookup m k).not.mp h
  cases hm : mlookup m k with
  | none => rfl
  | some v => rw [hm] at this; simp at this

theorem not_mem_keysOf_merase {α : Type} (m : List (String × α)) (k : String)
    (h : (keysOf m).Nodup) : k ∉ keysOf (merase m k) := by
  induction m with
  | nil => simp [merase]
  | cons kv rest ih =>
      rw [keysOf_cons, List.nodup_cons] at h
      rw [merase_cons]
      by_cases hk : kv.1 = k
      · rw [if_pos hk]
        exact hk ▸ h.1
      · rw [if_neg hk, keysOf_cons, List.mem_cons]
        intro hc
        rcases hc with hc | hc
        · exact hk hc.symm
        · exact ih h.2 hc

theorem mlookup_merase_self {α : Type} (m : List (String × α)) (k : String)
    (h : (keysOf m).Nodup) : mlookup (merase m k) k = none :=
  mlookup_eq_none_of_not_mem _ _ (not_mem_keysOf_merase m k h)

theorem keysOf_minsert_mem {α : Type} (m : List (String × α)) (k : String) (v : α)
    (h : k ∈ keysOf m) : keysOf (minsert m k v) = keysOf m := by
  induction m with
  | nil => simp [keysOf] at h
  | cons kv rest ih =>
      rw [keysOf_cons, List.mem_cons] at h
      rw [minsert_cons]
      by_cases hk : kv.1 = k
      · rw [if_pos hk, keysOf_cons, keysOf_cons, hk]
      · have h' : k ∈ keysOf rest := by
          rcases h with h | h
          · exact absurd h.symm hk
          · exact h
        rw [if_neg hk, keysOf_cons, keysOf_cons, ih h']

theorem keysOf_minsert_not_mem {α : Type} (m : List (String × α)) (k : String) (v : α)
    (h : k ∉ keysOf m) : keysOf (minsert m k v) = keysOf m ++ [k] := by
  induction m with
  | nil => simp [minsert, keysOf]
  | cons kv rest ih =>
      rw [keysOf_cons, List.mem_cons] at h
      push_neg at h
      rw [minsert_cons, if_neg (fun hc => h.1 hc.symm), keysOf_cons, keysOf_cons,
        ih h.2, List.cons_append]

theorem mlookup_mem {α : Type} (m : List (String × α)) (k : String) (v : α)
    (h : mlookup m k = some v) : (k, v) ∈ m := by
  induction m with
  | nil => simp [mlookup] at h
  | cons kv rest ih =>
      rw [mlookup_cons] at h
      by_cases hk : kv.1 = k
      · rw [if_pos hk] at h
        cases kv with
        | mk a b =>
            cases h
            cases hk
            exact List.mem_cons_self _ _
      · rw [if_neg hk] at h
        exact List.mem_cons_of_mem _ (ih h)

theorem mem_minsert {α : Type} (m : List (String × α)) (k : String) (v : α)
    (kv : String × α) (h : kv ∈ minsert m k v) : kv ∈ m ∨ kv = (k, v) := by
  induction m with
  | nil => simp [minsert] at h; right; exact h
  | cons kv' rest ih =>
      rw [minsert_cons] at h
      by_cases hk : kv'.1 = k
      · rw [if_pos hk, List.mem_cons] at h
        rcases h with h | h
        · right; exact h
        · left; exact List.mem_cons_of_mem _ h
      · rw [if_neg hk, List.mem_cons] at h
        rcases h with h | h
        · left; exact h ▸ List.mem_cons_self _ _
        · rcases ih h with h' | h'
          · left; exact List.mem_cons_of_mem _ h'
          · right; exact h'

theorem mem_merase {α : Type} (m : List (String × α)) (k : String)
    (kv : String × α) (h : kv ∈ merase m k) : kv ∈ m := by
  induction m with
  | nil => simp [merase] at h
  | cons kv' rest ih =>
      rw [merase_cons] at h
      by_cases hk : kv'.1 = k
      · rw [if_pos hk] at h
        exact List.mem_cons_of_mem _ h
      · rw [if_neg hk, List.mem_cons] at h
        rcases h with h | h
        · exact h ▸ List.mem_cons_self _ _
        · exact List.mem_cons_of_mem _ (ih h)

theorem keysOf_merase_congr {α β : Type} (m₁ : List (String × α)) (m₂ : List (String × β))
    (k : String) (h : keysOf m₁ = keysOf m₂) :
    keysOf (merase m₁ k) = keysOf (merase m₂ k) := by
  induction m₁ generalizing m₂ with
  | nil =>
      cases m₂ with
      | nil => rfl
      | cons kv rest => simp [keysOf] at h
  | cons kv rest ih =>
      cases m₂ with
      | nil => simp [keysOf] at h
      | cons kv' rest' =>
          rw [keysOf_cons, keysOf_cons, List.cons.injEq] at h
          rw [merase_cons, merase_cons]
          by_cases hk : kv.1 = k
          · rw [if_pos hk, if_pos (h.1 ▸ hk)]
            exact h.2
          · rw [if_neg hk, if_neg (h.1 ▸ hk), keysOf_cons, keysOf_cons, h.1,
              ih rest' h.2]

theorem keysOf_minsert_congr {α β : Type} (m₁ : List (String × α)) (m₂ : List (String × β))
    (k : String) (v₁ : α) (v₂ : β) (h : keysOf m₁ = keysOf m₂) :
    keysOf (minsert m₁ k v₁) = keysOf (minsert m₂ k v₂) := by
  by_cases hk : k ∈ keysOf m₁
  · rw [keysOf_minsert_mem _ _ _ hk, keysOf_minsert_mem _ _ _ (h ▸ hk), h]
  · rw [keysOf_minsert_not_mem _ _ _ hk, keysOf_minsert_not_mem _ _ _ (h ▸ hk), h]

theorem nodup_keysOf_minsert {α : Type} (m : List (String × α)) (k : String) (v : α)
    (h : (keysOf m).Nodup) : (keysOf (minsert m k v)).Nodup := by
  by_cases hk : k ∈ keysOf m
  · rw [keysOf_minsert_mem _ _ _ hk]; exact h
  · rw [keysOf_minsert_not_mem _ _ _ hk]
    simpa [List.nodup_append] using ⟨h, hk⟩

theorem keysOf_merase_sublist {α : Type} (m : List (String × α)) (k : String) :
    (keysOf (merase m k)).Sublist (keysOf m) := by
  induction m with
  | nil => simp [merase]
  | cons kv rest ih =>
      rw [merase_cons]
      by_cases hk : kv.1 = k
      · rw [if_pos hk, keysOf_cons]
        exact List.sublist_cons_of_sublist _ (List.Sublist.refl _)
      · rw [if_neg hk, keysOf_cons, keysOf_cons]
        exact List.Sublist.cons₂ _ ih

theorem nodup_keysOf_merase {α : Type} (m : List (String × α)) (k : String)
    (h : (keysOf m).Nodup) : (keysOf (merase m k)).Nodup :=
  (keysOf_merase_sublist m k).nodup h

theorem WF_of_Inv (p : Processor) (h : Inv p) : WF p := by
  obtain ⟨h1, h2, h3, h4, h5, h6, -⟩ := h
  exact ⟨h1 ▸ h6, h2 ▸ h6, h3 ▸ h6, h4 ▸ h6, h5 ▸ h6, h6⟩

/-! ### Lemmas on the histogram primitives -/

theorem length_incrBelow (l : List ℚ) (n : Nat) : (incrBelow l n).length = l.length := by
  induction l generalizing n with
  | nil => cases n <;> rfl
  | cons c rest ih =>
      cases n with
      | zero => rfl
      | succ n => simp [incrBelow, ih]

theorem getElem?_incrBelow (l : List ℚ) (n i : Nat) :
    (incrBelow l n)[i]? = if i < n then l[i]?.map (· + 1) else l[i]? := by
  induction l generalizing n i with
  | nil =>
      cases n with
      | zero => simp [incrBelow]
      | succ n => simp [incrBelow]
  | cons c rest ih =>
      cases n with
      | zero => simp [incrBelow]
      | succ n =>
          cases i with
          | zero => simp [incrBelow]
          | succ i => simpa [incrBelow, Nat.succ_lt_succ_iff] using ih n i

theorem getLast?_incrBelow (l : List ℚ) (n : Nat) (h : n < l.length) :
    (incrBelow l n).getLast? = l.getLast? := by
  rw [List.getLast?_eq_getElem?, List.getLast?_eq_getElem?, length_incrBelow,
    getElem?_incrBelow, if_neg]
  omega

theorem searchFloat64s_le_length (a : List ℚ) (x : ℚ) : searchFloat64s a x ≤ a.length := by
  induction a with
  | nil => simp [searchFloat64s]
  | cons b rest ih =>
      rw [searchFloat64s]
      by_cases hb : x ≤ b
      · simp [hb]
      · rw [if_neg hb]
        simpa using ih

/-- On a sorted slice the insertion point separates exactly the boundaries
strictly below the observation. -/
theorem lt_searchFloat64s_iff (a : List ℚ) (x : ℚ) (hs : a.Pairwise (· ≤ ·))
    (i : Nat) (hi : i < a.length) :
    i < searchFloat64s a x ↔ a.getD i 0 < x := by
  induction a generalizing i with
  | nil => simp at hi
  | cons b rest ih =>
      rw [List.pairwise_cons] at hs
      rw [searchFloat64s]
      by_cases hb : x ≤ b
      · rw [if_pos hb]
        cases i with
        | zero => simpa using not_lt_of_le hb
        | succ i =>
            rw [List.getD_cons_succ]
            simp only [Nat.not_lt_zero, false_iff, not_lt]
            have hi' : i < rest.length := by simpa using hi
            have hmem : rest.getD i 0 ∈ rest := by
              rw [List.getD_eq_getElem rest 0 hi']
              exact List.getElem_mem hi'
            exact le_trans hb (hs.1 _ hmem)
      · rw [if_neg hb]
        cases i with
        | zero =>
            rw [List.getD_cons_zero]
            simpa using lt_of_not_le hb
        | succ i =>
            rw [List.getD_cons_succ, Nat.succ_lt_succ_iff]
            exact ih hs.2 i (by simpa using hi)

/-! ### A closed form for the per-span update -/

theorem aggregateLatencyMetrics_eq (p : Processor) (key : String) (lat : ℚ) :
    aggregateLatencyMetrics p key lat =
      { p with
        latencyCount := minsert p.latencyCount key (mGetD p.latencyCount key 0 + 1),
        latencySum := minsert p.latencySum key (mGetD p.latencySum key 0 + lat),
        latencyBucketCounts := minsert p.latencyBucketCounts key
          (incrBelow (bucketBase p key) (searchFloat64s p.latencyBuckets lat)) } := by
  rw [aggregateLatencyMetrics]
  cases h : mlookup p.latencyBucketCounts key with
  | none =>
      simp only [h, Option.isSome_none, Bool.false_eq_true, if_false, bucketBase, h,
        Option.getD_none, mGetD, mlookup_minsert_self, Option.getD_some]
      congr 1
      rw [show (minsert (minsert p.latencyBucketCounts key
            (List.replicate (p.latencyBuckets.length + 1) 0)) key
            (incrBelow (List.replicate (p.latencyBuckets.length + 1) 0)
              (searchFloat64s p.latencyBuckets lat))) =
          minsert p.latencyBucketCounts key
            (incrBelow (List.replicate (p.latencyBuckets.length + 1) 0)
              (searchFloat64s p.latencyBuckets lat)) from ?_]
      clear h
      induction p.latencyBucketCounts with
      | nil => simp [minsert]
      | cons kv rest ih =>
          rw [minsert_cons]
          by_cases hk : kv.1 = key
          · rw [if_pos hk, minsert_cons, if_pos rfl, minsert_cons, if_pos hk]
          · rw [if_neg hk, minsert_cons, if_neg hk, minsert_cons, if_neg hk, ih]
  | some counts =>
      simp only [h, Option.isSome_some, if_true, bucketBase, h, Option.getD_some, mGetD]

theorem aggregateMetricsForSpan_eq (p : Processor) (svcName : String) (span : Span) :
    aggregateMetricsForSpan p svcName span =
      { p with
        cache := minsert p.cache (buildKey svcName span) (spanLabels svcName span),
        stalenessCounter := minsert p.stalenessCounter (buildKey svcName span) 0,
        calls := minsert p.calls (buildKey svcName span)
          (mGetD p.calls (buildKey svcName span) 0 + 1),
        latencyCount := minsert p.latencyCount (buildKey svcName span)
          (mGetD p.latencyCount (buildKey svcName span) 0 + 1),
        latencySum := minsert p.latencySum (buildKey svcName span)
          (mGetD p.latencySum (buildKey svcName span) 0 + latencyMS span),
        latencyBucketCounts := minsert p.latencyBucketCounts (buildKey svcName span)
          (incrBelow (bucketBase p (buildKey svcName span))
            (searchFloat64s p.latencyBuckets (latencyMS span))) } := by
  rw [aggregateMetricsForSpan, cacheLabels, aggregateLatencyMetrics_eq]
  rfl

/-! ### Lemmas on the staleness sweep -/

theorem sweepStep_latencyBuckets (q : Processor) (key : String) :
    (sweepStep q key).latencyBuckets = q.latencyBuckets := by
  rw [sweepStep]
  split <;> rfl

theorem sweepStep_namespace (q : Processor) (key : String) :
    (sweepStep q key).namespace' = q.namespace' := by
  rw [sweepStep]
  split <;> rfl

theorem sweep_latencyBuckets (p : Processor) : (sweep p).latencyBuckets = p.latencyBuckets := by
  rw [sweep]
  generalize keysOf p.stalenessCounter = l
  induction l generalizing p with
  | nil => rfl
  | cons key rest ih => rw [List.foldl_cons, ih, sweepStep_latencyBuckets]

/-- A sweep iteration for a different key leaves all six lookups at `k`
unchanged. -/
theorem sweepStep_lookup_ne (q : Processor) (key k : String) (h : key ≠ k) :
    mlookup (sweepStep q key).stalenessCounter k = mlookup q.stalenessCounter k ∧
    mlookup (sweepStep q key).calls k = mlookup q.calls k ∧
    mlookup (sweepStep q key).latencyCount k = mlookup q.latencyCount k ∧
    mlookup (sweepStep q key).latencySum k = mlookup q.latencySum k ∧
    mlookup (sweepStep q key).latencyBucketCounts k = mlookup q.latencyBucketCounts k ∧
    mlookup (sweepStep q key).cache k = mlookup q.cache k := by
  rw [sweepStep]
  split
  · exact ⟨mlookup_merase_ne _ _ _ h, mlookup_merase_ne _ _ _ h, mlookup_merase_ne _ _ _ h,
      mlookup_merase_ne _ _ _ h, mlookup_merase_ne _ _ _ h, mlookup_merase_ne _ _ _ h⟩
  · exact ⟨mlookup_minsert_ne _ _ _ _ h, rfl, rfl, rfl, rfl, rfl⟩

/-- Sweep iterations for keys other than `k` leave all six lookups at `k`
unchanged. -/
theorem foldl_sweepStep_lookup_not_mem (l : List String) (q : Processor) (k : String)
    (h : k ∉ l) :
    mlookup (l.foldl sweepStep q).stalenessCounter k = mlookup q.stalenessCounter k ∧
    mlookup (l.foldl sweepStep q).calls k = mlookup q.calls k ∧
    mlookup (l.foldl sweepStep q).latencyCount k = mlookup q.latencyCount k ∧
    mlookup (l.foldl sweepStep q).latencySum k = mlookup q.latencySum k ∧
    mlookup (l.foldl sweepStep q).latencyBucketCounts k = mlookup q.latencyBucketCounts k ∧
    mlookup (l.foldl sweepStep q).cache k = mlookup q.cache k := by
  induction l generalizing q with
  | nil => exact ⟨rfl, rfl, rfl, rfl, rfl, rfl⟩
  | cons key rest ih =>
      rw [List.mem_cons] at h
      push_neg at h
      rw [List.foldl_cons]
      obtain ⟨h1, h2, h3, h4, h5, h6⟩ := ih (sweepStep q key) h.2
      obtain ⟨g1, g2, g3, g4, g5, g6⟩ := sweepStep_lookup_ne q key k (fun hc => h.1 hc.symm)
      exact ⟨h1.trans g1, h2.trans g2, h3.trans g3, h4.trans g4, h5.trans g5, h6.trans g6⟩

theorem WF_sweepStep (q : Processor) (key : String) (h : WF q) : WF (sweepStep q key) := by
  obtain ⟨h1, h2, h3, h4, h5, h6⟩ := h
  rw [sweepStep]
  split
  · exact ⟨nodup_keysOf_merase _ _ h1, nodup_keysOf_merase _ _ h2,
      nodup_keysOf_merase _ _ h3, nodup_keysOf_merase _ _ h4,
      nodup_keysOf_merase _ _ h5, nodup_keysOf_merase _ _ h6⟩
  · exact ⟨h1, h2, h3, h4, h5, nodup_keysOf_minsert _ _ _ h6⟩

theorem WF_foldl_sweepStep (l : List String) (q : Processor) (h : WF q) :
    WF (l.foldl sweepStep q) := by
  induction l generalizing q with
  | nil => exact h
  | cons key rest ih => exact ih _ (WF_sweepStep q key h)

theorem WF_sweep (p : Processor) (h : WF p) : WF (sweep p) :=
  WF_foldl_sweepStep _ _ h

/-- A sweep iteration for a key whose incremented counter stays below the
threshold stores the incremented counter and touches nothing else. -/
theorem sweepStep_self_keep (q : Processor) (k : String) (c : Int)
    (hc : mlookup q.stalenessCounter k = some c) (hlt : c + 1 < 4) :
    sweepStep q k = { q with stalenessCounter := minsert q.stalenessCounter k (c + 1) } := by
  rw [sweepStep]
  simp only [mGetD, hc, Option.getD_some]
  rw [if_neg (by omega)]

/-- A sweep iteration for a key whose incremented counter reaches the
threshold deletes the key from all six maps. -/
theorem sweepStep_self_evict (q : Processor) (k : String) (c : Int)
    (hc : mlookup q.stalenessCounter k = some c) (hge : 4 ≤ c + 1) :
    sweepStep q k =
      { q with
        stalenessCounter := merase q.stalenessCounter k,
        calls := merase q.calls k,
        latencyCount := merase q.latencyCount k,
        latencySum := merase q.latencySum k,
        latencyBucketCounts := merase q.latencyBucketCounts k,
        cache := merase q.cache k } := by
  rw [sweepStep]
  simp only [mGetD, hc, Option.getD_some]
  rw [if_pos (by omega)]

/-- Effect of the whole sweep on a key whose counter survives: the counter
is incremented by exactly one and the five data maps keep their values. -/
theorem sweep_keep (p : Processor) (k : String) (c : Int) (hWF : WF p)
    (hc : mlookup p.stalenessCounter k = some c) (hlt : c + 1 < 4) :
    mlookup (sweep p).stalenessCounter k = some (c + 1) ∧
    mlookup (sweep p).calls k = mlookup p.calls k ∧
    mlookup (sweep p).latencyCount k = mlookup p.latencyCount k ∧
    mlookup (sweep p).latencySum k = mlookup p.latencySum k ∧
    mlookup (sweep p).latencyBucketCounts k = mlookup p.latencyBucketCounts k ∧
    mlookup (sweep p).cache k = mlookup p.cache k := by
  have hmem : k ∈ keysOf p.stalenessCounter := by
    rw [mem_keysOf_iff_mlookup, hc]
    rfl
  obtain ⟨a, b, hsplit⟩ := List.append_of_mem hmem
  have hnd : (keysOf p.stalenessCounter).Nodup := hWF.2.2.2.2.2
  rw [hsplit] at hnd
  rw [List.nodup_append] at hnd
  have hka : k ∉ a := fun hk => hnd.2.2 hk (List.mem_cons_self _ _)
  have hkb : k ∉ b := (List.nodup_cons.mp hnd.2.1).1
  rw [sweep, hsplit, List.foldl_append, List.foldl_cons]
  obtain ⟨a1, a2, a3, a4, a5, a6⟩ := foldl_sweepStep_lookup_not_mem a p k hka
  have hca : mlookup (a.foldl sweepStep p).stalenessCounter k = some c := a1.trans hc
  rw [sweepStep_self_keep _ _ _ hca hlt]
  obtain ⟨b1, b2, b3, b4, b5, b6⟩ :=
    foldl_sweepStep_lookup_not_mem b
      { a.foldl sweepStep p with
        stalenessCounter := minsert (a.foldl sweepStep p).stalenessCounter k (c + 1) } k hkb
  refine ⟨b1.trans ?_, b2.trans (a2.trans rfl ▸ a2), b3.trans a3, b4.trans a4,
    b5.trans a5, b6.trans a6⟩
  exact mlookup_minsert_self _ _ _

/-- Effect of the whole sweep on a key whose counter reaches the threshold:
the key is absent from all six maps afterwards. -/
theorem sweep_evict (p : Processor) (k : String) (c : Int) (hWF : WF p)
    (hc : mlookup p.stalenessCounter k = some c) (hge : 4 ≤ c + 1) :
    mlookup (sweep p).stalenessCounter k = none ∧
    mlookup (sweep p).calls k = none ∧
    mlookup (sweep p).latencyCount k = none ∧
    mlookup (sweep p).latencySum k = none ∧
    mlookup (sweep p).latencyBucketCounts k = none ∧
    mlookup (sweep p).cache k = none := by
  have hmem : k ∈ keysOf p.stalenessCounter := by
    rw [mem_keysOf_iff_mlookup, hc]
    rfl
  obtain ⟨a, b, hsplit⟩ := List.append_of_mem hmem
  have hnd : (keysOf p.stalenessCounter).Nodup := hWF.2.2.2.2.2
  rw [hsplit] at hnd
  rw [List.nodup_append] at hnd
  have hka : k ∉ a := fun hk => hnd.2.2 hk (List.mem_cons_self _ _)
  have hkb : k ∉ b := (List.nodup_cons.mp hnd.2.1).1
  rw [sweep, hsplit, List.foldl_append, List.foldl_cons]
  obtain ⟨a1, a2, a3, a4, a5, a6⟩ := foldl_sweepStep_lookup_not_mem a p k hka
  have hca : mlookup (a.foldl sweepStep p).stalenessCounter k = some c := a1.trans hc
  have hWFa : WF (a.foldl sweepStep p) := WF_foldl_sweepStep a p hWF
  rw [sweepStep_self_evict _ _ _ hca hge]
  obtain ⟨b1, b2, b3, b4, b5, b6⟩ :=
    foldl_sweepStep_lookup_not_mem b
      { a.foldl sweepStep p with
        stalenessCounter := merase (a.foldl sweepStep p).stalenessCounter k,
        calls := merase (a.foldl sweepStep p).calls k,
        latencyCount := merase (a.foldl sweepStep p).latencyCount k,
        latencySum := merase (a.foldl sweepStep p).latencySum k,
        latencyBucketCounts := merase (a.foldl sweepStep p).latencyBucketCounts k,
        cache := merase (a.foldl sweepStep p).cache k } k hkb
  obtain ⟨w1, w2, w3, w4, w5, w6⟩ := hWFa
  exact ⟨b1.trans (mlookup_merase_self _ _ w6), b2.trans (mlookup_merase_self _ _ w1),
    b3.trans (mlookup_merase_self _ _ w2), b4.trans (mlookup_merase_self _ _ w3),
    b5.trans (mlookup_merase_self _ _ w4), b6.trans (mlookup_merase_self _ _ w5)⟩

/-- Deleting an entry from a duplicate-free map cannot invent values. -/
theorem mlookup_merase_some {α : Type} (m : List (String × α)) (k' k : String) (v : α)
    (h : (keysOf m).Nodup) (hl : mlookup (merase m k') k = some v) :
    mlookup m k = some v := by
  by_cases hk : k' = k
  · subst hk
    rw [mlookup_merase_self _ _ h] at hl
    cases hl
  · rw [mlookup_merase_ne _ _ _ hk] at hl
    exact hl

/-- The sweep never invents or changes a surviving value: any value stored
for a key after the sweep was stored for it before. -/
theorem sweep_lookup_some (p : Processor) (k : String) (hWF : WF p) :
    (∀ v, mlookup (sweep p).calls k = some v → mlookup p.calls k = some v) ∧
    (∀ v, mlookup (sweep p).latencyCount k = some v → mlookup p.latencyCount k = some v) ∧
    (∀ v, mlookup (sweep p).latencySum k = some v → mlookup p.latencySum k = some v) ∧
    (∀ v, mlookup (sweep p).latencyBucketCounts k = some v →
      mlookup p.latencyBucketCounts k = some v) := by
  rw [sweep]
  generalize keysOf p.stalenessCounter = l
  induction l generalizing p with
  | nil => exact ⟨fun _ h => h, fun _ h => h, fun _ h => h, fun _ h => h⟩
  | cons key rest ih =>
      rw [List.foldl_cons]
      obtain ⟨i1, i2, i3, i4⟩ := ih (sweepStep p key) (WF_sweepStep p key hWF)
      obtain ⟨w1, w2, w3, w4, w5, w6⟩ := hWF
      have step :
          (∀ v, mlookup (sweepStep p key).calls k = some v → mlookup p.calls k = some v) ∧
          (∀ v, mlookup (sweepStep p key).latencyCount k = some v →
            mlookup p.latencyCount k = some v) ∧
          (∀ v, mlookup (sweepStep p key).latencySum k = some v →
            mlookup p.latencySum k = some v) ∧
          (∀ v, mlookup (sweepStep p key).latencyBucketCounts k = some v →
            mlookup p.latencyBucketCounts k = some v) := by
        rw [sweepStep]
        split
        · exact ⟨fun v => mlookup_merase_some _ _ _ _ w1,
            fun v => mlookup_merase_some _ _ _ _ w2,
            fun v => mlookup_merase_some _ _ _ _ w3,
            fun v => mlookup_merase_some _ _ _ _ w4⟩
        · exact ⟨fun _ h => h, fun _ h => h, fun _ h => h, fun _ h => h⟩
      exact ⟨fun v h => step.1 v (i1 v h), fun v h => step.2.1 v (i2 v h),
        fun v h => step.2.2.1 v (i3 v h), fun v h => step.2.2.2 v (i4 v h)⟩

/-! ### Preservation of the all-or-nothing invariant -/

theorem foldl_pres {α : Type} (P : Processor → Prop) (f : Processor → α → Processor)
    (hf : ∀ p a, P p → P (f p a)) (l : List α) (p : Processor) (hp : P p) :
    P (l.foldl f p) := by
  induction l generalizing p with
  | nil => exact hp
  | cons a rest ih => exact ih _ (hf p a hp)

theorem Inv_sweepStep (q : Processor) (key : String) (hInv : Inv q)
    (hk : key ∈ keysOf q.stalenessCounter) :
    Inv (sweepStep q key) ∧
    ∀ k', k' ∈ keysOf q.stalenessCounter → k' ≠ key →
      k' ∈ keysOf (sweepStep q key).stalenessCounter := by
  obtain ⟨h1, h2, h3, h4, h5, h6, h7⟩ := hInv
  rw [sweepStep]
  split
  · refine ⟨⟨keysOf_merase_congr _ _ _ h1, keysOf_merase_congr _ _ _ h2,
      keysOf_merase_congr _ _ _ h3, keysOf_merase_congr _ _ _ h4,
      keysOf_merase_congr _ _ _ h5, nodup_keysOf_merase _ _ h6, ?_⟩, ?_⟩
    · intro kv hkv
      exact h7 kv (mem_merase _ _ _ hkv)
    · intro k' hk' hne
      rw [mem_keysOf_iff_mlookup, mlookup_merase_ne _ _ _ (fun hc => hne hc.symm),
        ← mem_keysOf_iff_mlookup]
      exact hk'
  · refine ⟨⟨?_, ?_, ?_, ?_, ?_, nodup_keysOf_minsert _ _ _ h6, h7⟩, ?_⟩
    · rw [h1, keysOf_minsert_mem _ _ _ hk]
    · rw [h2, keysOf_minsert_mem _ _ _ hk]
    · rw [h3, keysOf_minsert_mem _ _ _ hk]
    · rw [h4, keysOf_minsert_mem _ _ _ hk]
    · rw [h5, keysOf_minsert_mem _ _ _ hk]
    · intro k' hk' hne
      rw [keysOf_minsert_mem _ _ _ hk]
      exact hk'

theorem Inv_sweep (p : Processor) (hInv : Inv p) : Inv (sweep p) := by
  rw [sweep]
  have main : ∀ (l : List String) (q : Processor), Inv q →
      (∀ x ∈ l, x ∈ keysOf q.stalenessCounter) → l.Nodup → Inv (l.foldl sweepStep q) := by
    intro l
    induction l with
    | nil => exact fun q hq _ _ => hq
    | cons key rest ih =>
        intro q hq hmem hnd
        rw [List.foldl_cons]
        rw [List.nodup_cons] at hnd
        obtain ⟨hstep, hrest⟩ := Inv_sweepStep q key hq (hmem key (List.mem_cons_self _ _))
        refine ih _ hstep ?_ hnd.2
        intro x hx
        exact hrest x (hmem x (List.mem_cons_of_mem _ hx)) (fun hc => hnd.1 (hc ▸ hx))
  exact main _ p hInv (fun x hx => hx) hInv.2.2.2.2.2.1

theorem Inv_collectState (p : Processor) (hInv : Inv p) : Inv (collectState p) := by
  have := Inv_sweep p hInv
  rw [collectState]
  obtain ⟨h1, h2, h3, h4, h5, h6, h7⟩ := this
  exact ⟨h1, h2, h3, h4, h5, h6, h7⟩

theorem getLast?_bucketBase (p : Processor) (key : String)
    (h7 : ∀ kv ∈ p.latencyBucketCounts,
      kv.2.length = p.latencyBuckets.length + 1 ∧ kv.2.getLast? = some 0) :
    (bucketBase p key).length = p.latencyBuckets.length + 1 ∧
    (bucketBase p key).getLast? = some 0 := by
  rw [bucketBase]
  cases hbc : mlookup p.latencyBucketCounts key with
  | none =>
      constructor
      · simp
      · rw [Option.getD_none, List.getLast?_eq_getElem?]
        simp
  | some counts =>
      rw [Option.getD_some]
      exact h7 (key, counts) (mlookup_mem _ _ _ hbc)

theorem Inv_aggregateMetricsForSpan (p : Processor) (svc : String) (sp : Span)
    (hInv : Inv p) : Inv (aggregateMetricsForSpan p svc sp) := by
  obtain ⟨h1, h2, h3, h4, h5, h6, h7⟩ := hInv
  rw [aggregateMetricsForSpan_eq]
  refine ⟨keysOf_minsert_congr _ _ _ _ _ h1, keysOf_minsert_congr _ _ _ _ _ h2,
    keysOf_minsert_congr _ _ _ _ _ h3, keysOf_minsert_congr _ _ _ _ _ h4,
    keysOf_minsert_congr _ _ _ _ _ h5, nodup_keysOf_minsert _ _ _ h6, ?_⟩
  intro kv hkv
  rcases mem_minsert _ _ _ _ hkv with hold | hnew
  · exact h7 kv hold
  · obtain ⟨hbase, hlast⟩ := getLast?_bucketBase p (buildKey svc sp) h7
    have hidx : searchFloat64s p.latencyBuckets (latencyMS sp) < (bucketBase p (buildKey svc sp)).length := by
      rw [hbase]
      exact Nat.lt_succ_of_le (searchFloat64s_le_length _ _)
    subst hnew
    constructor
    · rw [length_incrBelow, hbase]
    · rw [getLast?_incrBelow _ _ hidx, hlast]

theorem Inv_aggregateMetrics (p : Processor) (rss : List ResourceSpans) (hInv : Inv p) :
    Inv (aggregateMetrics p rss) := by
  rw [aggregateMetrics]
  refine foldl_pres Inv _ ?_ rss p hInv
  intro q rs hq
  dsimp only
  split
  · exact hq
  · refine foldl_pres Inv _ ?_ _ q hq
    intro q' ils hq'
    refine foldl_pres Inv _ ?_ _ q' hq'
    intro q'' span hq''
    exact Inv_aggregateMetricsForSpan _ _ _ hq''

/-- Every state reachable by ingestions and collection cycles satisfies the
all-or-nothing membership invariant. -/
theorem Inv_reachable (p : Processor) (h : Reachable p) : Inv p := by
  induction h with
  | init => decide
  | push p req hr ih => exact Inv_aggregateMetrics _ _ ih
  | collect p hr ih => exact Inv_collectState _ ih

/-- All six lookups of the per-span update at the span's own key. -/
theorem push_lookup (p : Processor) (svc : String) (sp : Span) :
    mlookup (aggregateMetricsForSpan p svc sp).calls (buildKey svc sp)
      = some (mGetD p.calls (buildKey svc sp) 0 + 1) ∧
    mlookup (aggregateMetricsForSpan p svc sp).latencyCount (buildKey svc sp)
      = some (mGetD p.latencyCount (buildKey svc sp) 0 + 1) ∧
    mlookup (aggregateMetricsForSpan p svc sp).latencySum (buildKey svc sp)
      = some (mGetD p.latencySum (buildKey svc sp) 0 + latencyMS sp) ∧
    mlookup (aggregateMetricsForSpan p svc sp).stalenessCounter (buildKey svc sp) = some 0 ∧
    mlookup (aggregateMetricsForSpan p svc sp).cache (buildKey svc sp)
      = some (spanLabels svc sp) ∧
    mlookup (aggregateMetricsForSpan p svc sp).latencyBucketCounts (buildKey svc sp)
      = some (incrBelow (bucketBase p (buildKey svc sp))
          (searchFloat64s p.latencyBuckets (latencyMS sp))) := by
  rw [aggregateMetricsForSpan_eq]
  exact ⟨mlookup_minsert_self _ _ _, mlookup_minsert_self _ _ _, mlookup_minsert_self _ _ _,
    mlookup_minsert_self _ _ _, mlookup_minsert_self _ _ _, mlookup_minsert_self _ _ _⟩

/-- The per-span update leaves every other key's lookups unchanged. -/
theorem push_lookup_ne (p : Processor) (svc : String) (sp : Span) (k : String)
    (h : buildKey svc sp ≠ k) :
    mlookup (aggregateMetricsForSpan p svc sp).calls k = mlookup p.calls k ∧
    mlookup (aggregateMetricsForSpan p svc sp).latencyCount k = mlookup p.latencyCount k ∧
    mlookup (aggregateMetricsForSpan p svc sp).latencySum k = mlookup p.latencySum k ∧
    mlookup (aggregateMetricsForSpan p svc sp).stalenessCounter k
      = mlookup p.stalenessCounter k ∧
    mlookup (aggregateMetricsForSpan p svc sp).cache k = mlookup p.cache k ∧
    mlookup (aggregateMetricsForSpan p svc sp).latencyBucketCounts k
      = mlookup p.latencyBucketCounts k := by
  rw [aggregateMetricsForSpan_eq]
  exact ⟨mlookup_minsert_ne _ _ _ _ h, mlookup_minsert_ne _ _ _ _ h,
    mlookup_minsert_ne _ _ _ _ h, mlookup_minsert_ne _ _ _ _ h,
    mlookup_minsert_ne _ _ _ _ h, mlookup_minsert_ne _ _ _ _ h⟩

theorem WF_aggregateMetricsForSpan (p : Processor) (svc : String) (sp : Span)
    (hWF : WF p) : WF (aggregateMetricsForSpan p svc sp) := by
  obtain ⟨w1, w2, w3, w4, w5, w6⟩ := hWF
  rw [aggregateMetricsForSpan_eq]
  exact ⟨nodup_keysOf_minsert _ _ _ w1, nodup_keysOf_minsert _ _ _ w2,
    nodup_keysOf_minsert _ _ _ w3, nodup_keysOf_minsert _ _ _ w4,
    nodup_keysOf_minsert _ _ _ w5, nodup_keysOf_minsert _ _ _ w6⟩

/-! ### Lemmas on the appender runs -/

theorem runAppend_nil {E : Type} (ap : Appender E) (s : Nat × List Sample) :
    runAppend ap s [] = .ok s := rfl

theorem runAppend_cons {E : Type} (ap : Appender E) (s : Nat × List Sample)
    (x : Sample) (l : List Sample) :
    runAppend ap s (x :: l) = (appendStep ap s x) >>= (fun s' => runAppend ap s' l) := rfl

theorem except_bind_congr {E A B : Type} (x : Except E A) (f g : A → Except E B)
    (h : ∀ a, f a = g a) : x >>= f = x >>= g := by
  cases x with
  | error e => rfl
  | ok a => simpa using h a

theorem runAppend_append {E : Type} (ap : Appender E) (s : Nat × List Sample)
    (l₁ l₂ : List Sample) :
    runAppend ap s (l₁ ++ l₂) = runAppend ap s l₁ >>= (fun s' => runAppend ap s' l₂) := by
  induction l₁ generalizing s with
  | nil => rfl
  | cons x rest ih =>
      rw [List.cons_append, runAppend_cons, runAppend_cons]
      cases appendStep ap s x with
      | error e => rfl
      | ok s' => simpa using ih s'

/-- If no call in the window fails, the run appends the whole list. -/
theorem runAppend_ok {E : Type} (ap : Appender E) (c : Nat) (w : List Sample)
    (l : List Sample) (h : ∀ i < l.length, ap.failAt (c + i) = none) :
    runAppend ap (c, w) l = .ok (c + l.length, w ++ l) := by
  induction l generalizing c w with
  | nil => simp [runAppend_nil]
  | cons x rest ih =>
      have h0 : ap.failAt c = none := by simpa using h 0 (Nat.succ_pos _)
      have hstep : appendStep ap (c, w) x = .ok (c + 1, w ++ [x]) := by
        simp [appendStep, h0]
      rw [runAppend_cons, hstep]
      show runAppend ap (c + 1, w ++ [x]) rest = _
      rw [ih (c + 1) (w ++ [x]) ?hrest]
      case hrest =>
        intro i hi
        have := h (i + 1) (by simpa using Nat.succ_lt_succ hi)
        simpa [Nat.add_assoc, Nat.add_comm 1 i] using this
      congr 1
      rw [Prod.ext_iff]
      constructor
      · simp only [List.length_cons]
        omega
      · simp

/-- A failed run fails at the first failing call index, and the samples
written are exactly the ones before that call — no rollback, no further
emission. -/
theorem runAppend_error_inv {E : Type} (ap : Appender E) (c : Nat) (w : List Sample)
    (l : List Sample) (e : E) (out : List Sample)
    (h : runAppend ap (c, w) l = .error (e, out)) :
    ∃ j, j < l.length ∧ ap.failAt (c + j) = some e ∧
      (∀ i < j, ap.failAt (c + i) = none) ∧ out = w ++ l.take j := by
  induction l generalizing c w with
  | nil => simp [runAppend_nil] at h
  | cons x rest ih =>
      cases hf : ap.failAt c with
      | some e' =>
          have hstep : appendStep ap (c, w) x = .error (e', w) := by
            simp [appendStep, hf]
          rw [runAppend_cons, hstep] at h
          have h' : (Except.error (e', w) :
              Except (E × List Sample) (Nat × List Sample)) = .error (e, out) := h
          rw [Except.error.injEq, Prod.mk.injEq] at h'
          refine ⟨0, Nat.succ_pos _, by simp [hf, h'.1], ?_, by simp [h'.2]⟩
          intro i hi
          omega
      | none =>
          have hstep : appendStep ap (c, w) x = .ok (c + 1, w ++ [x]) := by
            simp [appendStep, hf]
          rw [runAppend_cons, hstep] at h
          have h' : runAppend ap (c + 1, w ++ [x]) rest = .error (e, out) := h
          obtain ⟨j, hj, hfail, hok, hout⟩ := ih (c + 1) (w ++ [x]) h'
          refine ⟨j + 1, Nat.succ_lt_succ hj, ?_, ?_, ?_⟩
          · simpa [Nat.add_assoc, Nat.add_comm 1 j] using hfail
          · intro i hi
            cases i with
            | zero => simpa using hf
            | succ i =>
                have := hok i (by omega)
                simpa [Nat.add_assoc, Nat.add_comm 1 i] using this
          · rw [hout, List.take_succ_cons, List.append_assoc, List.singleton_append]

/-- Folding the appender over mapped elements is an appender run. -/
theorem foldlM_appendStep_map {E α : Type} (ap : Appender E) (f : α → Sample)
    (l : List α) (s : Nat × List Sample) :
    l.foldlM (fun s a => appendStep ap s (f a)) s = runAppend ap s (l.map f) := by
  induction l generalizing s with
  | nil => rfl
  | cons a rest ih =>
      rw [List.map_cons, runAppend_cons, List.foldlM_cons]
      refine except_bind_congr _ _ _ ?_
      intro s'
      exact ih s'

theorem collectCalls_eq {E : Type} (p : Processor) (ap : Appender E) (ts : Int)
    (s : Nat × List Sample) :
    collectCalls p ap ts s = runAppend ap s (callsSamples p ts) := by
  rw [collectCalls, callsSamples]
  exact foldlM_appendStep_map ap _ p.calls s

/-- The per-key body of `collectLatencyMetrics` is the appender run over
that key's sample list. -/
theorem latencyBody_eq {E : Type} (p : Processor) (ap : Appender E) (ts : Int)
    (key : String) (s : Nat × List Sample) :
    (do
      let s ← appendStep ap s ⟨getLabels p key "latency_count", ts,
        mGetD p.latencyCount key 0⟩
      let s ← appendStep ap s ⟨getLabels p key "latency_sum", ts,
        mGetD p.latencySum key 0⟩
      (mGetD p.latencyBucketCounts key []).enum.foldlM
        (fun s ic => appendStep ap s
          ⟨getLabels p key "latency_bucket" ++ [("le", bucketLabelValue p ic.1)],
           ts, ic.2⟩) s)
    = runAppend ap s (keySamples p ts key) := by
  rw [keySamples, runAppend_cons]
  refine except_bind_congr _ _ _ ?_
  intro s1
  rw [runAppend_cons]
  refine except_bind_congr _ _ _ ?_
  intro s2
  exact foldlM_appendStep_map ap _ _ s2

theorem collectLatencyMetrics_eq {E : Type} (p : Processor) (ap : Appender E) (ts : Int)
    (s : Nat × List Sample) :
    collectLatencyMetrics p ap ts s = runAppend ap s (latencySamples p ts) := by
  rw [collectLatencyMetrics, latencySamples]
  have main : ∀ (l : List (String × ℚ)) (s : Nat × List Sample),
      l.foldlM
        (fun s kv => do
          let s ← appendStep ap s ⟨getLabels p kv.1 "latency_count", ts,
            mGetD p.latencyCount kv.1 0⟩
          let s ← appendStep ap s ⟨getLabels p kv.1 "latency_sum", ts,
            mGetD p.latencySum kv.1 0⟩
          (mGetD p.latencyBucketCounts kv.1 []).enum.foldlM
            (fun s ic => appendStep ap s
              ⟨getLabels p kv.1 "latency_bucket" ++ [("le", bucketLabelValue p ic.1)],
               ts, ic.2⟩) s) s
      = runAppend ap s (l.flatMap (fun kv => keySamples p ts kv.1)) := by
    intro l
    induction l with
    | nil => intro s; rfl
    | cons kv rest ih =>
        intro s
        rw [List.foldlM_cons, List.flatMap_cons, runAppend_append, latencyBody_eq]
        refine except_bind_congr _ _ _ ?_
        intro s1
        exact ih s1
  exact main p.latencyCount s

/-- `CollectMetrics` is the appender run over the emission plan of the
post-sweep state; its state component is exactly the post-sweep state. -/
theorem collectMetrics_eq {E : Type} (p : Processor) (ap : Appender E) (ts : Int) :
    collectMetrics p ap ts =
      (collectState p, runAppend ap (0, []) (emit (collectState p) ts)) := by
  rw [collectMetrics, emit, runAppend_append]
  refine congrArg _ ?_
  rw [collectCalls_eq]
  exact except_bind_congr _ _ _ (fun s => collectLatencyMetrics_eq _ _ _ s)

/-! ### String lemmas for the aggregation key -/

theorem string_data_append (s t : String) : (s ++ t).data = s.data ++ t.data := rfl

theorem underscore_data : ("_" : String).data = ['_'] := rfl

/-- Splitting on a separator absent from both left parts is unambiguous. -/
theorem sep_append_inj (c : Char) (a : List Char) : ∀ (a' r r' : List Char),
    c ∉ a → c ∉ a' → a ++ c :: r = a' ++ c :: r' → a = a' ∧ r = r' := by
  induction a with
  | nil =>
      intro a' r r' _ ha' h
      cases a' with
      | nil => simpa using h
      | cons y ys =>
          rw [List.nil_append, List.cons_append, List.cons.injEq] at h
          exact absurd (h.1 ▸ List.mem_cons_self y ys) ha'
  | cons x xs ih =>
      intro a' r r' ha ha' h
      cases a' with
      | nil =>
          rw [List.cons_append, List.nil_append, List.cons.injEq] at h
          exact absurd (h.1.symm ▸ List.mem_cons_self x xs) ha
      | cons y ys =>
          rw [List.cons_append, List.cons_append, List.cons.injEq] at h
          have hxs := ih ys r r' (fun hc => ha (List.mem_cons_of_mem _ hc))
            (fun hc => ha' (List.mem_cons_of_mem _ hc)) h.2
          exact ⟨by rw [h.1, hxs.1], hxs.2⟩

theorem buildKey_data (svc : String) (sp : Span) :
    (buildKey svc sp).data
      = svc.data ++ '_' :: (sp.name.data ++ '_' :: (sp.kind.data ++ '_' :: sp.status.data)) := by
  rw [buildKey]
  simp only [string_data_append, underscore_data, List.append_assoc, List.singleton_append,
    List.cons_append, List.nil_append]

/-! ### Claim C1 -/

/-- C1, counterexample: `buildKey` is not collision-free as claimed — the
spans `("a_b", "c", …)` and `("a", "b_c", …)` disagree on the service name
yet receive the same key, because the key is the tuple joined with the
ambiguous separator `_`. -/
theorem c1_counterexample :
    buildKey "a_b" ⟨"c", "k", "s", 0, 0⟩ = buildKey "a" ⟨"b_c", "k", "s", 0, 0⟩ ∧
    ("a_b" : String) ≠ "a" := by
  constructor
  · rfl
  · decide

/-- C1, amended: `buildKey` is deterministic, and it is collision-free
exactly on tuples whose components avoid the separator: when none of the
four components of either span contains `'_'`, two spans receive the same
key if and only if they agree on the tuple (service name, operation name,
kind, status); with components containing `'_'` distinct tuples may
collide. -/
theorem c1_amended_key_injective (svc1 svc2 : String) (sp1 sp2 : Span)
    (h1 : '_' ∉ svc1.data) (h2 : '_' ∉ sp1.name.data)
    (h3 : '_' ∉ sp1.kind.data) (h4 : '_' ∉ sp1.status.data)
    (h5 : '_' ∉ svc2.data) (h6 : '_' ∉ sp2.name.data)
    (h7 : '_' ∉ sp2.kind.data) (h8 : '_' ∉ sp2.status.data) :
    buildKey svc1 sp1 = buildKey svc2 sp2 ↔
      (svc1 = svc2 ∧ sp1.name = sp2.name ∧ sp1.kind = sp2.kind ∧ sp1.status = sp2.status) := by
  constructor
  · intro h
    have hd := congrArg String.data h
    rw [buildKey_data, buildKey_data] at hd
    obtain ⟨e1, hd1⟩ := sep_append_inj '_' _ _ _ _ h1 h5 hd
    obtain ⟨e2, hd2⟩ := sep_append_inj '_' _ _ _ _ h2 h6 hd1
    obtain ⟨e3, e4⟩ := sep_append_inj '_' _ _ _ _ h3 h7 hd2
    exact ⟨String.ext e1, String.ext e2, String.ext e3, String.ext e4⟩
  · rintro ⟨e1, e2, e3, e4⟩
    rw [buildKey, buildKey, e1, e2, e3, e4]

/-- C1, witness for the amended theorem at concrete separator-free inputs. -/
theorem c1_amended_key_injective_witness :
    buildKey "a" ⟨"b", "c", "d", 0, 0⟩ = buildKey "x" ⟨"b", "c", "d", 0, 0⟩ ↔
      (("a" : String) = "x" ∧ (Span.mk "b" "c" "d" 0 0).name = (Span.mk "b" "c" "d" 0 0).name ∧
        (Span.mk "b" "c" "d" 0 0).kind = (Span.mk "b" "c" "d" 0 0).kind ∧
        (Span.mk "b" "c" "d" 0 0).status = (Span.mk "b" "c" "d" 0 0).status) :=
  c1_amended_key_injective "a" "x" ⟨"b", "c", "d", 0, 0⟩ ⟨"b", "c", "d", 0, 0⟩
    (by decide) (by decide) (by decide) (by decide)
    (by decide) (by decide) (by decide) (by decide)

/-! ### Claim C2 -/

/-- C2: aggregating a latency `L` against sorted bucket boundaries stores
`incrBelow counts idx` for the key, where `idx` is the sorted-insertion
point of `L`; consequently each bucket count at an index whose boundary is
strictly below `L` grows by exactly one, and a bucket whose boundary is
greater than or equal to `L` is never incremented — the inverse of the
conventional cumulative-histogram rule. -/
theorem c2_bucket_increment (p : Processor) (key : String) (L : ℚ) (counts : List ℚ)
    (hs : p.latencyBuckets.Pairwise (· ≤ ·))
    (hc : mlookup p.latencyBucketCounts key = some counts)
    (hlen : counts.length = p.latencyBuckets.length + 1) :
    mlookup (aggregateLatencyMetrics p key L).latencyBucketCounts key
      = some (incrBelow counts (searchFloat64s p.latencyBuckets L)) ∧
    ∀ i, i < p.latencyBuckets.length →
      (incrBelow counts (searchFloat64s p.latencyBuckets L)).getD i 0
        = counts.getD i 0 + (if p.latencyBuckets.getD i 0 < L then 1 else 0) := by
  constructor
  · rw [aggregateLatencyMetrics_eq]
    have hb : bucketBase p key = counts := by rw [bucketBase, hc, Option.getD_some]
    rw [hb]
    exact mlookup_minsert_self _ _ _
  · intro i hi
    have hic : i < counts.length := by omega
    rw [List.getD_eq_getElem?_getD, getElem?_incrBelow]
    by_cases hlt : i < searchFloat64s p.latencyBuckets L
    · rw [if_pos hlt, if_pos ((lt_searchFloat64s_iff _ _ hs i hi).mp hlt),
        List.getElem?_eq_getElem hic, Option.map_some', Option.getD_some,
        List.getD_eq_getElem _ _ hic]
    · rw [if_neg hlt,
        if_neg (fun hb => hlt ((lt_searchFloat64s_iff _ _ hs i hi).mpr hb)),
        List.getD_eq_getElem?_getD, add_zero]

/-- C2, witness at the example state: the stored slice is as computed and
the per-index accounting holds for the 5 ms observation. -/
theorem c2_bucket_increment_witness :
    mlookup (aggregateLatencyMetrics exStored exKey 5).latencyBucketCounts exKey
      = some (incrBelow [1, 0, 0, 0, 0, 0] (searchFloat64s exStored.latencyBuckets 5)) ∧
    ∀ i, i < exStored.latencyBuckets.length →
      (incrBelow [1, 0, 0, 0, 0, 0] (searchFloat64s exStored.latencyBuckets 5)).getD i 0
        = ([1, 0, 0, 0, 0, 0] : List ℚ).getD i 0
          + (if exStored.latencyBuckets.getD i 0 < 5 then 1 else 0) :=
  c2_bucket_increment exStored exKey 5 [1, 0, 0, 0, 0, 0]
    (by decide) (by rfl) (by rfl)

/-! ### Claim C3 -/

theorem latencyMS_of_le (sp : Span) (h1 : sp.startTimeUnixNano ≤ sp.endTimeUnixNano)
    (h2 : sp.endTimeUnixNano < 2 ^ 64) :
    latencyMS sp = ((sp.endTimeUnixNano - sp.startTimeUnixNano : ℕ) : ℚ) / 1000000 := by
  rw [latencyMS]
  have h : (sp.endTimeUnixNano + 2 ^ 64 - sp.startTimeUnixNano) % 2 ^ 64
      = sp.endTimeUnixNano - sp.startTimeUnixNano := by omega
  rw [h]

/-- Ingesting a batch of same-key spans adds the batch size to the calls
and latency counters of that key and the batch's total latency to its sum,
from any starting state. -/
theorem foldl_push_counts (k : String) (l : List (String × Span))
    (hk : ∀ x ∈ l, buildKey x.1 x.2 = k) :
    ∀ p : Processor,
      mGetD ((l.foldl (fun q x => aggregateMetricsForSpan q x.1 x.2) p)).calls k 0
        = mGetD p.calls k 0 + l.length ∧
      mGetD ((l.foldl (fun q x => aggregateMetricsForSpan q x.1 x.2) p)).latencyCount k 0
        = mGetD p.latencyCount k 0 + l.length ∧
      mGetD ((l.foldl (fun q x => aggregateMetricsForSpan q x.1 x.2) p)).latencySum k 0
        = mGetD p.latencySum k 0 + (l.map (fun x => latencyMS x.2)).sum := by
  induction l with
  | nil => intro p; simp
  | cons x xs ih =>
      intro p
      rw [List.foldl_cons]
      obtain ⟨hx1, hx2, hx3, -, -, -⟩ := push_lookup p x.1 x.2
      have hkx : buildKey x.1 x.2 = k := hk x (List.mem_cons_self _ _)
      rw [hkx] at hx1 hx2 hx3
      obtain ⟨i1, i2, i3⟩ :=
        ih (fun y hy => hk y (List.mem_cons_of_mem _ hy)) (aggregateMetricsForSpan p x.1 x.2)
      refine ⟨?_, ?_, ?_⟩
      · rw [i1, mGetD, hx1, Option.getD_some, List.length_cons]
        push_cast
        ring
      · rw [i2, mGetD, hx2, Option.getD_some, List.length_cons]
        push_cast
        ring
      · rw [i3, mGetD, hx3, Option.getD_some, List.map_cons, List.sum_cons]
        ring

/-- C3: ingesting any batch of spans that all map to one aggregation key
into a fresh processor leaves, before any eviction, `calls` and
`latencyCount` equal to the batch size and `latencySum` equal to the sum of
the spans' latencies `(endNanos - startNanos) / 1e6` in milliseconds. -/
theorem c3_counts_and_sums (l : List (String × Span)) (k : String)
    (hk : ∀ x ∈ l, buildKey x.1 x.2 = k)
    (hts : ∀ x ∈ l, x.2.startTimeUnixNano ≤ x.2.endTimeUnixNano ∧
      x.2.endTimeUnixNano < 2 ^ 64) :
    mGetD ((l.foldl (fun q x => aggregateMetricsForSpan q x.1 x.2) newProcessor)).calls k 0
      = l.length ∧
    mGetD ((l.foldl (fun q x => aggregateMetricsForSpan q x.1 x.2) newProcessor)).latencyCount
        k 0 = l.length ∧
    mGetD ((l.foldl (fun q x => aggregateMetricsForSpan q x.1 x.2) newProcessor)).latencySum
        k 0
      = (l.map (fun x =>
          ((x.2.endTimeUnixNano - x.2.startTimeUnixNano : ℕ) : ℚ) / 1000000)).sum := by
  obtain ⟨h1, h2, h3⟩ := foldl_push_counts k l hk newProcessor
  refine ⟨?_, ?_, ?_⟩
  · rw [h1]
    simp [mGetD, mlookup, newProcessor]
  · rw [h2]
    simp [mGetD, mlookup, newProcessor]
  · rw [h3]
    have hmap : l.map (fun x => latencyMS x.2)
        = l.map (fun x =>
            ((x.2.endTimeUnixNano - x.2.startTimeUnixNano : ℕ) : ℚ) / 1000000) :=
      List.map_congr_left (fun x hx => latencyMS_of_le _ (hts x hx).1 (hts x hx).2)
    rw [hmap]
    simp [mGetD, mlookup, newProcessor]

/-- C3, witness at the two-span example batch. -/
theorem c3_counts_and_sums_witness :
    mGetD ((exBatch.foldl (fun q x => aggregateMetricsForSpan q x.1 x.2) newProcessor)).calls
        exKey 0 = exBatch.length ∧
    mGetD ((exBatch.foldl
        (fun q x => aggregateMetricsForSpan q x.1 x.2) newProcessor)).latencyCount
        exKey 0 = exBatch.length ∧
    mGetD ((exBatch.foldl
        (fun q x => aggregateMetricsForSpan q x.1 x.2) newProcessor)).latencySum
        exKey 0
      = (exBatch.map (fun x =>
          ((x.2.endTimeUnixNano - x.2.startTimeUnixNano : ℕ) : ℚ) / 1000000)).sum :=
  c3_counts_and_sums exBatch exKey (by decide) (by decide)

/-! ### Claim C4 -/

theorem collectN_zero (p : Processor) : collectN p 0 = p := rfl

theorem collectN_succ (p : Processor) (n : Nat) :
    collectN p (n + 1) = collectN (collectState p) n := rfl

theorem collectState_calls (p : Processor) : (collectState p).calls = (sweep p).calls := rfl

theorem collectState_latencyCount (p : Processor) :
    (collectState p).latencyCount = (sweep p).latencyCount := rfl

theorem collectState_latencySum (p : Processor) :
    (collectState p).latencySum = (sweep p).latencySum := rfl

theorem collectState_latencyBucketCounts (p : Processor) :
    (collectState p).latencyBucketCounts = (sweep p).latencyBucketCounts := rfl

theorem collectState_cache (p : Processor) : (collectState p).cache = (sweep p).cache := rfl

theorem collectState_stalenessCounter (p : Processor) :
    (collectState p).stalenessCounter = (sweep p).stalenessCounter := rfl

theorem WF_collectState (p : Processor) (h : WF p) : WF (collectState p) := WF_sweep p h

/-- C4: pushing a span for a key resets its staleness counter to 0; if
four collection cycles then pass without a push for that key, the key is
still present in all per-key maps after cycles 1 through 3 — its counter
incremented by exactly 1 per cycle — and is absent from all of them after
cycle 4. -/
theorem c4_staleness_lifecycle (p : Processor) (svc : String) (sp : Span) (hWF : WF p) :
    mlookup (aggregateMetricsForSpan p svc sp).stalenessCounter (buildKey svc sp) = some 0 ∧
    (∀ n : Nat, 1 ≤ n → n ≤ 3 →
      presentAll (collectN (aggregateMetricsForSpan p svc sp) n) (buildKey svc sp) ∧
      mlookup (collectN (aggregateMetricsForSpan p svc sp) n).stalenessCounter
        (buildKey svc sp) = some (n : Int)) ∧
    absentAll (collectN (aggregateMetricsForSpan p svc sp) 4) (buildKey svc sp) := by
  obtain ⟨hc, hlc, hls, hst, hcache, hbc⟩ := push_lookup p svc sp
  set q0 := aggregateMetricsForSpan p svc sp with hq0def
  set k := buildKey svc sp with hkdef
  have WF0 : WF q0 := WF_aggregateMetricsForSpan p svc sp hWF
  have S1 := sweep_keep q0 k 0 WF0 hst (by norm_num)
  have WF1 : WF (collectState q0) := WF_collectState q0 WF0
  have st1 : mlookup (collectState q0).stalenessCounter k = some 1 := by
    rw [collectState_stalenessCounter]
    exact S1.1
  have S2 := sweep_keep (collectState q0) k 1 WF1 st1 (by norm_num)
  have WF2 : WF (collectState (collectState q0)) := WF_collectState _ WF1
  have st2 : mlookup (collectState (collectState q0)).stalenessCounter k = some 2 := by
    rw [collectState_stalenessCounter]
    exact S2.1
  have S3 := sweep_keep (collectState (collectState q0)) k 2 WF2 st2 (by norm_num)
  have WF3 : WF (collectState (collectState (collectState q0))) := WF_collectState _ WF2
  have st3 : mlookup (collectState (collectState (collectState q0))).stalenessCounter k
      = some 3 := by
    rw [collectState_stalenessCounter]
    exact S3.1
  have E := sweep_evict (collectState (collectState (collectState q0))) k 3 WF3 st3
    (by norm_num)
  have pres1 : presentAll (collectState q0) k := by
    unfold presentAll
    rw [collectState_calls, collectState_latencyCount, collectState_latencySum,
      collectState_latencyBucketCounts, collectState_cache, collectState_stalenessCounter,
      S1.2.1, S1.2.2.1, S1.2.2.2.1, S1.2.2.2.2.1, S1.2.2.2.2.2, S1.1,
      hc, hlc, hls, hbc, hcache]
    exact ⟨rfl, rfl, rfl, rfl, rfl, rfl⟩
  have pres2 : presentAll (collectState (collectState q0)) k := by
    unfold presentAll
    rw [collectState_calls, collectState_latencyCount, collectState_latencySum,
      collectState_latencyBucketCounts, collectState_cache, collectState_stalenessCounter,
      S2.2.1, S2.2.2.1, S2.2.2.2.1, S2.2.2.2.2.1, S2.2.2.2.2.2, S2.1,
      collectState_calls, collectState_latencyCount, collectState_latencySum,
      collectState_latencyBucketCounts, collectState_cache,
      S1.2.1, S1.2.2.1, S1.2.2.2.1, S1.2.2.2.2.1, S1.2.2.2.2.2,
      hc, hlc, hls, hbc, hcache]
    exact ⟨rfl, rfl, rfl, rfl, rfl, rfl⟩
  have pres3 : presentAll (collectState (collectState (collectState q0))) k := by
    unfold presentAll
    rw [collectState_calls, collectState_latencyCount, collectState_latencySum,
      collectState_latencyBucketCounts, collectState_cache, collectState_stalenessCounter,
      S3.2.1, S3.2.2.1, S3.2.2.2.1, S3.2.2.2.2.1, S3.2.2.2.2.2, S3.1,
      collectState_calls, collectState_latencyCount, collectState_latencySum,
      collectState_latencyBucketCounts, collectState_cache,
      S2.2.1, S2.2.2.1, S2.2.2.2.1, S2.2.2.2.2.1, S2.2.2.2.2.2,
      collectState_calls, collectState_latencyCount, collectState_latencySum,
      collectState_latencyBucketCounts, collectState_cache,
      S1.2.1, S1.2.2.1, S1.2.2.2.1, S1.2.2.2.2.1, S1.2.2.2.2.2,
      hc, hlc, hls, hbc, hcache]
    exact ⟨rfl, rfl, rfl, rfl, rfl, rfl⟩
  refine ⟨hst, ?_, ?_⟩
  · intro n h1 h3
    interval_cases n
    · rw [collectN_succ, collectN_zero]
      exact ⟨pres1, st1⟩
    · rw [collectN_succ, collectN_succ, collectN_zero]
      exact ⟨pres2, st2⟩
    · rw [collectN_succ, collectN_succ, collectN_succ, collectN_zero]
      exact ⟨pres3, st3⟩
  · rw [collectN_succ, collectN_succ, collectN_succ, collectN_succ, collectN_zero]
    unfold absentAll
    rw [collectState_calls, collectState_latencyCount, collectState_latencySum,
      collectState_latencyBucketCounts, collectState_cache, collectState_stalenessCounter]
    exact ⟨E.2.1, E.2.2.1, E.2.2.2.1, E.2.2.2.2.1, E.2.2.2.2.2, E.1⟩

/-- C4, witness: the lifecycle instantiated on a fresh processor and the
example span. -/
theorem c4_staleness_lifecycle_witness :
    mlookup (aggregateMetricsForSpan newProcessor "svc" exSpan).stalenessCounter
      (buildKey "svc" exSpan) = some 0 ∧
    (∀ n : Nat, 1 ≤ n → n ≤ 3 →
      presentAll (collectN (aggregateMetricsForSpan newProcessor "svc" exSpan) n)
        (buildKey "svc" exSpan) ∧
      mlookup (collectN (aggregateMetricsForSpan newProcessor "svc" exSpan) n).stalenessCounter
        (buildKey "svc" exSpan) = some (n : Int)) ∧
    absentAll (collectN (aggregateMetricsForSpan newProcessor "svc" exSpan) 4)
      (buildKey "svc" exSpan) :=
  c4_staleness_lifecycle newProcessor "svc" exSpan (by decide)

/-! ### Claim C5 -/

theorem collectState_latencyBuckets (p : Processor) :
    (collectState p).latencyBuckets = p.latencyBuckets := sweep_latencyBuckets p

theorem length_keySamples (p : Processor) (ts : Int) (k : String) (counts : List ℚ)
    (hc : mlookup p.latencyBucketCounts k = some counts) :
    (keySamples p ts k).length = 2 + counts.length := by
  rw [keySamples]
  simp only [List.length_cons, List.length_map, List.enum_length, mGetD, hc, Option.getD_some]
  omega

theorem sum_map_const_of {α : Type} (l : List α) (f : α → ℕ) (K : ℕ)
    (h : ∀ a ∈ l, f a = K) : (l.map f).sum = l.length * K := by
  induction l with
  | nil => simp
  | cons a rest ih =>
      rw [List.map_cons, List.sum_cons, h a (List.mem_cons_self _ _),
        ih (fun x hx => h x (List.mem_cons_of_mem _ hx)), List.length_cons, Nat.succ_mul,
        Nat.add_comm]

theorem length_latencySamples (p : Processor) (ts : Int) (hInv : Inv p) :
    (latencySamples p ts).length = p.latencyCount.length * (p.latencyBuckets.length + 3) := by
  obtain ⟨h1, h2, h3, h4, h5, h6, h7⟩ := hInv
  rw [latencySamples, List.length_flatMap]
  refine sum_map_const_of _ _ _ ?_
  intro kv hkv
  show (keySamples p ts kv.1).length = p.latencyBuckets.length + 3
  have hkmem : kv.1 ∈ keysOf p.latencyCount := List.mem_map_of_mem _ hkv
  have hkbc : kv.1 ∈ keysOf p.latencyBucketCounts := by
    rw [h4, ← h2]
    exact hkmem
  rw [mem_keysOf_iff_mlookup] at hkbc
  cases hbc : mlookup p.latencyBucketCounts kv.1 with
  | none =>
      rw [hbc] at hkbc
      simp at hkbc
  | some counts =>
      have hcl := (h7 (kv.1, counts) (mlookup_mem _ _ _ hbc)).1
      rw [length_keySamples p ts kv.1 counts hbc, hcl]
      omega

theorem length_callsSamples (p : Processor) (ts : Int) :
    (callsSamples p ts).length = p.calls.length := by
  simp [callsSamples]

theorem length_emit (p : Processor) (ts : Int) (hInv : Inv p) :
    (emit p ts).length = p.calls.length * (p.latencyBuckets.length + 4) := by
  have hllen : p.latencyCount.length = p.calls.length := by
    have h := hInv.2.1.trans hInv.1.symm
    have := congrArg List.length h
    simpa [keysOf] using this
  rw [emit, List.length_append, length_callsSamples, length_latencySamples p ts hInv, hllen]
  ring

/-- C5, counterexample: at a state with one live key and five configured
buckets, a successful collection cycle performs 9 append calls for that
key — one calls, one latency_count, one latency_sum and six bucket samples
— while the claim's formula `2 + (numBuckets + 1)` predicts 8. -/
theorem c5_counterexample :
    (collectState exStored).calls.length = 1 ∧
    (collectMetrics exStored (neverFail Unit) 0).2.toOption.map Prod.fst = some 9 ∧
    (9 : Nat) ≠ (collectState exStored).calls.length
      * (2 + (exStored.latencyBuckets.length + 1)) := by
  refine ⟨by decide, by decide, by decide⟩

/-- C5 (amended): a successful collection cycle performs exactly
`3 + (numBuckets + 1)` append calls per live key: one calls sample, one
latency_count sample, one latency_sum sample, and one sample per configured
bucket boundary plus one overflow sample labelled `+Inf`. -/
theorem c5_amended_sample_count (p : Processor) (E : Type) (ts : Int) (hInv : Inv p) :
    (collectMetrics p (neverFail E) ts).2
      = .ok ((collectState p).calls.length * (3 + (p.latencyBuckets.length + 1)),
             emit (collectState p) ts) := by
  rw [collectMetrics_eq]
  show runAppend (neverFail E) (0, []) (emit (collectState p) ts) = _
  rw [runAppend_ok (neverFail E) 0 [] _ (fun i _ => rfl)]
  congr 1
  rw [Prod.ext_iff]
  refine ⟨?_, by simp⟩
  have hIc : Inv (collectState p) := Inv_collectState p hInv
  rw [Nat.zero_add, length_emit _ _ hIc, collectState_latencyBuckets]
  have harith : 3 + (p.latencyBuckets.length + 1) = p.latencyBuckets.length + 4 := by omega
  rw [harith]

/-- C5, witness for the amended count at the example state. -/
theorem c5_amended_sample_count_witness :
    (collectMetrics exStored (neverFail Unit) 0).2
      = .ok ((collectState exStored).calls.length * (3 + (exStored.latencyBuckets.length + 1)),
             emit (collectState exStored) 0) :=
  c5_amended_sample_count exStored Unit 0 (by decide)

/-! ### Claim C6 -/

/-- C6: if a sink append fails during a collection cycle, the cycle stops
at the first failing call and returns its error; the samples already
appended — exactly the emission-plan prefix before the failing call — are
not rolled back; the cycle's state effect is the staleness sweep alone, so
keys live at emission time keep their cumulative aggregates unchanged; and
a following cycle against a healthy sink re-emits its full cumulative
emission plan. -/
theorem c6_error_handling (p : Processor) (E : Type) (ap : Appender E) (ts ts2 : Int)
    (e : E) (written : List Sample) (hWF : WF p)
    (hfail : (collectMetrics p ap ts).2 = .error (e, written)) :
    (∃ j, ap.failAt j = some e ∧ (∀ i < j, ap.failAt i = none) ∧
       written = (emit (collectState p) ts).take j) ∧
    (collectMetrics p ap ts).1 = collectState p ∧
    (∀ k v, mlookup (collectState p).calls k = some v → mlookup p.calls k = some v) ∧
    (∀ k v, mlookup (collectState p).latencyCount k = some v →
       mlookup p.latencyCount k = some v) ∧
    (∀ k v, mlookup (collectState p).latencySum k = some v →
       mlookup p.latencySum k = some v) ∧
    (∀ k v, mlookup (collectState p).latencyBucketCounts k = some v →
       mlookup p.latencyBucketCounts k = some v) ∧
    (collectMetrics (collectState p) (neverFail E) ts2).2
      = .ok ((emit (collectState (collectState p)) ts2).length,
             emit (collectState (collectState p)) ts2) := by
  refine ⟨?_, rfl, ?_, ?_, ?_, ?_, ?_⟩
  · rw [collectMetrics_eq] at hfail
    have hfail' : runAppend ap (0, []) (emit (collectState p) ts) = .error (e, written) :=
      hfail
    obtain ⟨j, hj, hfa, hok, hout⟩ := runAppend_error_inv ap 0 [] _ e written hfail'
    refine ⟨j, by simpa using hfa, ?_, by simpa using hout⟩
    intro i hi
    simpa using hok i hi
  · intro k v h
    rw [collectState_calls] at h
    exact (sweep_lookup_some p k hWF).1 v h
  · intro k v h
    rw [collectState_latencyCount] at h
    exact (sweep_lookup_some p k hWF).2.1 v h
  · intro k v h
    rw [collectState_latencySum] at h
    exact (sweep_lookup_some p k hWF).2.2.1 v h
  · intro k v h
    rw [collectState_latencyBucketCounts] at h
    exact (sweep_lookup_some p k hWF).2.2.2 v h
  · rw [collectMetrics_eq]
    show runAppend (neverFail E) (0, []) (emit (collectState (collectState p)) ts2) = _
    rw [runAppend_ok (neverFail E) 0 [] _ (fun i _ => rfl)]
    simp

/-- C6, witness: a sink failing its third call aborts the example cycle
with that error after exactly the first two planned samples were written. -/
theorem c6_error_handling_witness :
    (collectMetrics exStored exFailAp 0).2
      = .error ("boom", (emit (collectState exStored) 0).take 2) ∧
    (∃ j, exFailAp.failAt j = some "boom" ∧ (∀ i < j, exFailAp.failAt i = none) ∧
       (emit (collectState exStored) 0).take 2 = (emit (collectState exStored) 0).take j) :=
  ⟨by rfl,
   (c6_error_handling exStored String exFailAp 0 1 "boom"
      ((emit (collectState exStored) 0).take 2) (by decide) (by rfl)).1⟩

/-! ### Claim C7 -/

/-- C7: after the staleness sweep of every collection cycle, the
active-series gauge is set to exactly the number of keys that survived the
sweep — the post-sweep key count of the store. -/
theorem c7_active_series_gauge (p : Processor) (E : Type) (ap : Appender E) (ts : Int) :
    (collectMetrics p ap ts).1.calls = (sweep p).calls ∧
    (collectMetrics p ap ts).1.metricActiveSeries = ((sweep p).calls.length : ℚ) :=
  ⟨rfl, rfl⟩

/-! ### Claim C8 -/

/-- C8: in every state reachable by interleaved span ingestions and
collection cycles, a key is present in the calls map exactly when it is
present in each of latencyCount, latencySum, bucketCounts, the label cache
and stalenessCounter. -/
theorem c8_all_or_nothing (p : Processor) (h : Reachable p) (k : String) :
    ((mlookup p.calls k).isSome ↔ (mlookup p.latencyCount k).isSome) ∧
    ((mlookup p.calls k).isSome ↔ (mlookup p.latencySum k).isSome) ∧
    ((mlookup p.calls k).isSome ↔ (mlookup p.latencyBucketCounts k).isSome) ∧
    ((mlookup p.calls k).isSome ↔ (mlookup p.cache k).isSome) ∧
    ((mlookup p.calls k).isSome ↔ (mlookup p.stalenessCounter k).isSome) := by
  obtain ⟨h1, h2, h3, h4, h5, h6, -⟩ := Inv_reachable p h
  have e : ∀ {α : Type} (m : List (String × α)), keysOf m = keysOf p.stalenessCounter →
      ((mlookup m k).isSome ↔ (mlookup p.stalenessCounter k).isSome) := by
    intro α m hm
    rw [← mem_keysOf_iff_mlookup, ← mem_keysOf_iff_mlookup, hm]
  exact ⟨(e _ h1).trans (e _ h2).symm, (e _ h1).trans (e _ h3).symm,
    (e _ h1).trans (e _ h4).symm, (e _ h1).trans (e _ h5).symm, e _ h1⟩

/-- C8, witness at the initial state. -/
theorem c8_all_or_nothing_witness :
    ((mlookup newProcessor.calls "k").isSome ↔
      (mlookup newProcessor.latencyCount "k").isSome) ∧
    ((mlookup newProcessor.calls "k").isSome ↔
      (mlookup newProcessor.latencySum "k").isSome) ∧
    ((mlookup newProcessor.calls "k").isSome ↔
      (mlookup newProcessor.latencyBucketCounts "k").isSome) ∧
    ((mlookup newProcessor.calls "k").isSome ↔
      (mlookup newProcessor.cache "k").isSome) ∧
    ((mlookup newProcessor.calls "k").isSome ↔
      (mlookup newProcessor.stalenessCounter "k").isSome) :=
  c8_all_or_nothing newProcessor Reachable.init "k"

/-! ### Claim C9 -/

/-- C9: in every reachable state, every stored bucket-count slice has one
slot per configured boundary plus an overflow slot; the overflow slot —
the slice's last element, the one emitted with the `le="+Inf"` label — is
never incremented and always holds 0, because the histogram update only
increments indices strictly below the insertion point, which never exceeds
the number of boundaries. -/
theorem c9_overflow_bucket_zero (p : Processor) (h : Reachable p) (k : String)
    (counts : List ℚ) (hc : mlookup p.latencyBucketCounts k = some counts) :
    counts.length = p.latencyBuckets.length + 1 ∧
    counts.getLast? = some 0 ∧
    ∀ ic ∈ counts.enum, ic.1 = p.latencyBuckets.length → ic.2 = 0 := by
  have h7 := (Inv_reachable p h).2.2.2.2.2.2
  obtain ⟨hlen0, hlast0⟩ := h7 (k, counts) (mlookup_mem _ _ _ hc)
  have hlen : counts.length = p.latencyBuckets.length + 1 := hlen0
  have hlast : counts.getLast? = some 0 := hlast0
  refine ⟨hlen, hlast, ?_⟩
  rintro ⟨i, x⟩ hic hidx
  have hidx' : i = p.latencyBuckets.length := hidx
  have hget : counts[i]? = some x := List.mem_enum_iff_getElem?.mp hic
  show x = 0
  rw [List.getLast?_eq_getElem?] at hlast
  have hbi : counts.length - 1 = i := by omega
  rw [hbi, hget] at hlast
  exact (Option.some.injEq _ _ ▸ hlast)

/-- C9, witness at the state reached by pushing the example request. -/
theorem c9_overflow_bucket_zero_witness :
    (incrBelow (bucketBase newProcessor (buildKey "svc" exSpan))
        (searchFloat64s newProcessor.latencyBuckets (latencyMS exSpan))).length
      = exPushed.latencyBuckets.length + 1 ∧
    (incrBelow (bucketBase newProcessor (buildKey "svc" exSpan))
        (searchFloat64s newProcessor.latencyBuckets (latencyMS exSpan))).getLast? = some 0 ∧
    ∀ ic ∈ (incrBelow (bucketBase newProcessor (buildKey "svc" exSpan))
        (searchFloat64s newProcessor.latencyBuckets (latencyMS exSpan))).enum,
      ic.1 = exPushed.latencyBuckets.length → ic.2 = 0 :=
  c9_overflow_bucket_zero exPushed (Reachable.push newProcessor exReq Reachable.init)
    (buildKey "svc" exSpan) _ (push_lookup newProcessor "svc" exSpan).2.2.2.2.2

/-! ### Claim C10 -/

/-- C10: service-name filtering is per-resource: a resource whose
attribute list has no service-name attribute, or whose first service-name
attribute carries an empty or non-string value, contributes nothing —
every span under it, across all its instrumentation-library groups, is
dropped with no state change — while `PushSpans` still returns nil. -/
theorem c10_service_name_filter (p : Processor) (pre post : List ResourceSpans)
    (rs : ResourceSpans)
    (h : rs.resource.attributes.find? (fun attr => attr.key = attributeServiceName) = none ∨
      ∃ attr,
        rs.resource.attributes.find? (fun attr => attr.key = attributeServiceName)
          = some attr ∧ attr.value.getStringValue = "") :
    aggregateMetrics p (pre ++ rs :: post) = aggregateMetrics p (pre ++ post) ∧
    (pushSpans p ⟨pre ++ rs :: post⟩).2 = none := by
  have hsvc : getServiceName rs.resource = "" := by
    rw [getServiceName]
    rcases h with h | ⟨attr, hfind, hval⟩
    · rw [h]
    · rw [hfind]
      exact hval
  constructor
  · rw [aggregateMetrics, aggregateMetrics, List.foldl_append, List.foldl_append,
      List.foldl_cons]
    congr 1
    dsimp only
    rw [hsvc]
    simp
  · rfl

/-- C10, witness: a resource with a non-string service-name value and one
span beneath it is dropped whole and `PushSpans` reports no error. -/
theorem c10_service_name_filter_witness :
    aggregateMetrics newProcessor ([] ++ exBadResourceSpans :: [])
      = aggregateMetrics newProcessor ([] ++ []) ∧
    (pushSpans newProcessor ⟨[] ++ exBadResourceSpans :: []⟩).2 = none :=
  c10_service_name_filter newProcessor [] [] exBadResourceSpans
    (Or.inr ⟨⟨attributeServiceName, .nonString⟩, by rfl, rfl⟩)

end Spanmetrics
